import Mathlib

/-!
# ImageGraphCutSegmentation: a verification development

Shallow embedding of

* `Mask/ForegroundBackgroundSegmentMask.cpp` (`ForegroundBackgroundSegmentMask::Read`),
* `Examples/ImageGraphCutSegmentationExample.cpp` (`main`),
* `Mask/ITKHelpers/ITKHelpers.cpp` (`Get4NeighborIndicesInsideRegion`,
  `GetRegionInRadiusAroundPixel`, `GetRegionCenter`),

and a model, taken from the specification, of the segmentation engine `ImageGraphCut` that
`main` calls, together with the properties stated about them.

Text (file names, file contents, lines) is `List Char`.  C++ streams are explicit
state: the unread characters plus the `eofbit` / `failbit` flags of `std::basic_ios`.
Exceptions are an `Option String` holding the message of the `std::runtime_error`.
Calls to code that lives outside these files are recorded in a trace of events.

The first part of the file holds the definitions, the second part the theorems.
-/

namespace ImageGraphCut

/-! ## C++ streams -/

/-- `std::isspace` in the classic locale: space, `\t`, `\n`, `\v`, `\f`, `\r`. -/
def isSpace (c : Char) : Bool :=
  c.toNat = 32 || (9 ≤ c.toNat && c.toNat ≤ 13)

/-- `std::isdigit`. -/
def isDigit (c : Char) : Bool :=
  48 ≤ c.toNat && c.toNat ≤ 57

/-- State of a `std::ifstream` / `std::stringstream`: the characters between the get
pointer and the end of the buffer, and the two state bits the code depends on. -/
structure Stream where
  buf : List Char
  eofbit : Bool
  failbit : Bool
  deriving DecidableEq, Repr

namespace Stream

/-- A freshly constructed `std::stringstream`. -/
def empty : Stream := ⟨[], false, false⟩

/-- `std::ifstream fin(name)` after a successful open on a file with the given bytes. -/
def ofFile (content : List Char) : Stream := ⟨content, false, false⟩

/-- `basic_ios::good()`. -/
def good (s : Stream) : Bool := !s.eofbit && !s.failbit

/-- `basic_ios::clear()`: resets the state bits, leaves the buffer alone. -/
def clear (s : Stream) : Stream := { s with eofbit := false, failbit := false }

/-- `stream << str`: appends at the put pointer (the end of the buffer); a stream that is
not good refuses the write and sets `failbit`. -/
def write (s : Stream) (str : List Char) : Stream :=
  if s.good then { s with buf := s.buf ++ str } else { s with failbit := true }

/-- `std::getline(stream, str)`: returns the new stream state and the new value of `str`.
When the sentry fails `str` keeps its old value. -/
def getline (s : Stream) (str : List Char) : Stream × List Char :=
  if s.good then
    let l := s.buf.takeWhile (fun c => c.toNat != 10)
    match s.buf.dropWhile (fun c => c.toNat != 10) with
    | [] => (⟨[], true, l.isEmpty⟩, l)
    | _ :: t => (⟨t, false, false⟩, l)
  else ({ s with failbit := true }, str)

/-- `stream >> str` for a `std::string` (with `skipws`): returns the new stream state and the
new value of `str`.  When the sentry fails `str` keeps its old value. -/
def extractString (s : Stream) (str : List Char) : Stream × List Char :=
  if s.good then
    match s.buf.dropWhile isSpace with
    | [] => (⟨[], true, true⟩, str)
    | c :: t =>
      let r := (c :: t).dropWhile (fun c => !isSpace c)
      (⟨r, r.isEmpty, false⟩, (c :: t).takeWhile (fun c => !isSpace c))
  else ({ s with failbit := true }, str)

/-- `INT_MAX`. -/
def intMax : Int := 2147483647

/-- `INT_MIN`. -/
def intMin : Int := -2147483648

/-- Value accumulated by `num_get` over a run of decimal digits. -/
def digitsValue (ds : List Char) : Nat :=
  ds.foldl (fun acc c => 10 * acc + (c.toNat - 48)) 0

/-- Sign prefix accepted by `num_get`: returns whether the number is negative and what
follows the sign. -/
def splitSign : List Char → Bool × List Char
  | [] => (false, [])
  | c :: t => if c.toNat = 45 then (true, t) else if c.toNat = 43 then (false, t) else (false, c :: t)

/-- `stream >> val` for an `int` (decimal base, with `skipws`): returns the new stream state
and the new value of `val`.  A failing sentry leaves `val` alone; a field without digits
stores 0; an out-of-range field stores `INT_MAX` / `INT_MIN`; both set `failbit`. -/
def extractInt (s : Stream) (val : Int) : Stream × Int :=
  if s.good then
    match s.buf.dropWhile isSpace with
    | [] => (⟨[], true, true⟩, val)
    | c :: t =>
      let sg := splitSign (c :: t)
      let ds := sg.2.takeWhile isDigit
      let r := sg.2.dropWhile isDigit
      if ds.isEmpty then (⟨r, r.isEmpty, true⟩, 0)
      else
        let v : Int := if sg.1 then -(digitsValue ds : Int) else (digitsValue ds : Int)
        if intMax < v then (⟨r, r.isEmpty, true⟩, intMax)
        else if v < intMin then (⟨r, r.isEmpty, true⟩, intMin)
        else (⟨r, r.isEmpty, false⟩, v)
  else ({ s with failbit := true }, val)

end Stream

/-! ## `ForegroundBackgroundSegmentMask::Read` -/

/-- What `Read` does to the outside world, in order. -/
inductive Event where
  /-- `std::ifstream fin(filename.c_str())`. -/
  | openFile (filename : List Char)
  /-- The line written to `std::cout` once both values are known. -/
  | print (filename : List Char) (foregroundValue backgroundValue : Int)
  /-- The call `ReadFromImage(fullImageFileName, foregroundValue, backgroundValue)`. -/
  | readFromImage (fullImageFileName : List Char) (foregroundValue backgroundValue : Int)
  deriving DecidableEq, Repr

/-- Result of running `Read`: the events it performed and the message of the
`std::runtime_error` it threw, if any. -/
structure Outcome where
  trace : List Event
  thrown : Option String
  deriving DecidableEq, Repr

/-- The keyword `foreground`. -/
def kwForeground : List Char := "foreground".toList

/-- The keyword `background`. -/
def kwBackground : List Char := "background".toList

/-- `ForegroundBackgroundSegmentMask::Read(filename)`.

`getFileExtension` and `getPath` stand for `Helpers::GetFileExtension` and
`Helpers::GetPath`; `fs` maps a file name to the bytes of the file when it can be opened. -/
def Read (getFileExtension getPath : List Char → List Char)
    (fs : List Char → Option (List Char)) (filename : List Char) : Outcome :=
  let extension := getFileExtension filename
  if extension ≠ "fbmask".toList then
    ⟨[], some ("Cannot read files with extension other than .fbmask! Specified file had extension ."
      ++ String.mk extension ++ " You might want ReadFromImage instead.")⟩
  else
    match fs filename with
    | none => ⟨[.openFile filename], some "File not found!"⟩
    | some content =>
      let fin := Stream.ofFile content
      let linestream := Stream.empty
      -- first line
      let g1 := fin.getline []
      let linestream := (linestream.clear.write g1.2)
      let t1 := linestream.extractString []
      let v1 := t1.1.extractInt 0
      let type1 := t1.2
      let value1 := v1.2
      if type1 ≠ kwForeground ∧ type1 ≠ kwBackground then
        ⟨[.openFile filename], some "Invalid .fbmask file!"⟩
      else
        let foregroundValue : Int := if type1 = kwForeground then value1 else 0
        let backgroundValue : Int := if type1 = kwForeground then 0 else value1
        -- second line
        let g2 := g1.1.getline g1.2
        let linestream := (v1.1.clear.write g2.2)
        let t2 := linestream.extractString []
        let v2 := t2.1.extractInt 0
        let type2 := t2.2
        let value2 := v2.2
        if type1 = type2 then
          ⟨[.openFile filename],
            some "Invalid .fbmask file! Foreground or background value listed twice!"⟩
        else if type2 ≠ kwForeground ∧ type2 ≠ kwBackground then
          ⟨[.openFile filename], some "Invalid .fbmask file!"⟩
        else
          let foregroundValue : Int := if type2 = kwForeground then value2 else foregroundValue
          let backgroundValue : Int := if type2 = kwForeground then backgroundValue else value2
          -- image name
          let g3 := g2.1.getline []
          let imageFileName := g3.2
          if imageFileName.length = 0 then
            ⟨[.openFile filename, .print filename foregroundValue backgroundValue],
              some "Image file name was empty!"⟩
          else
            let path := getPath filename
            let fullImageFileName := path ++ imageFileName
            ⟨[.openFile filename, .print filename foregroundValue backgroundValue,
              .readFromImage fullImageFileName foregroundValue backgroundValue], none⟩

/-- The word `Read` extracts from the first line of a file with these bytes (`type1`). -/
def firstKeyword (content : List Char) : List Char :=
  ((Stream.empty.clear.write ((Stream.ofFile content).getline []).2).extractString []).2

/-- The word `Read` extracts after appending the second line to the line stream (`type2`). -/
def secondKeyword (content : List Char) : List Char :=
  let g1 := (Stream.ofFile content).getline []
  let v1 := ((Stream.empty.clear.write g1.2).extractString []).1.extractInt 0
  let g2 := g1.1.getline g1.2
  ((v1.1.clear.write g2.2).extractString []).2

/-! ### The text of a well-formed header -/

/-- Positional value of a run of decimal digits. -/
def decimalValue : List Char → Nat
  | [] => 0
  | c :: cs => (c.toNat - 48) * 10 ^ cs.length + decimalValue cs

/-- The text of a sign: `-` for a negative number, nothing otherwise. -/
def signText (negative : Bool) : List Char := if negative then [Char.ofNat 45] else []

/-- Value denoted by a sign and a run of decimal digits. -/
def signedValue (negative : Bool) (ds : List Char) : Int :=
  if negative then -(decimalValue ds : Int) else (decimalValue ds : Int)

/-- What ends up in an `int` when a field denoting `v` is extracted. -/
def clampInt (v : Int) : Int :=
  if Stream.intMax < v then Stream.intMax else if v < Stream.intMin then Stream.intMin else v

/-- A header line: keyword, separator, sign, digits. -/
def headerLine (kw sep : List Char) (negative : Bool) (ds : List Char) : List Char :=
  kw ++ sep ++ signText negative ++ ds

/-- The line-feed character. -/
def newline : Char := Char.ofNat 10

/-- The space character. -/
def space : Char := Char.ofNat 32

/-- The file stream after the first two lines have been taken off a file whose text after
the second line is `rest` (empty, or starting with the line feed that ends line two). -/
def afterHeader : List Char → Stream
  | [] => ⟨[], true, false⟩
  | _ :: t => ⟨t, false, false⟩

/-- The part of `Read` from the third `getline` on. -/
def readTail (getPath : List Char → List Char) (filename : List Char)
    (foregroundValue backgroundValue : Int) (fin : Stream) : Outcome :=
  if (fin.getline []).2.length = 0 then
    ⟨[.openFile filename, .print filename foregroundValue backgroundValue],
      some "Image file name was empty!"⟩
  else
    ⟨[.openFile filename, .print filename foregroundValue backgroundValue,
      .readFromImage (getPath filename ++ (fin.getline []).2) foregroundValue backgroundValue],
      none⟩

/-! ## Images, indices and regions -/

/-- `itk::Index<2>`: `i0` is `index[0]`, `i1` is `index[1]`.  Index values are integers
without bound.  The sums that the helpers form themselves, `pixel + offset` and
`pixel - radius`, are taken as exact: they leave the range of the 64-bit signed index type
only where the sum is undefined in C++. -/
structure Index2 where
  i0 : Int
  i1 : Int
  deriving DecidableEq, Repr

/-- `itk::Offset<2>` added to an index (`pixel + offset`), as the exact sum. -/
def Index2.add (p : Index2) (d0 d1 : Int) : Index2 := ⟨p.i0 + d0, p.i1 + d1⟩

/-- `itk::Size<2>`. -/
structure Size2 where
  s0 : Nat
  s1 : Nat
  deriving DecidableEq, Repr

/-- `itk::ImageRegion<2>`: lower corner and size. -/
structure ImageRegion where
  index : Index2
  size : Size2
  deriving DecidableEq, Repr

/-- Conversion of an index value (64-bit signed) to the size type (64-bit unsigned): the value
modulo 2^64. -/
def toSizeValue (v : Int) : Nat := (v % 2 ^ 64).toNat

/-- Conversion of a size value (64-bit unsigned) to the index type (64-bit signed), as
`static_cast<IndexValueType>` and the assignment to an index component do: values of 2^63 and
above come out negative. -/
def toIndexValue (n : Nat) : Int :=
  if n % 2 ^ 64 < 2 ^ 63 then ((n % 2 ^ 64 : Nat) : Int) else ((n % 2 ^ 64 : Nat) : Int) - 2 ^ 64

/-- Sum of two index values in the 64-bit signed index type: the two's-complement value of
the sum. -/
def addIndexValue (a b : Int) : Int := toIndexValue (toSizeValue (a + b))

/-- `itk::ImageRegion<2>::IsInside(index)`: in each dimension in turn, the index must not lie
below the corner `m_Index[i]` nor at or beyond
`m_Index[i] + static_cast<IndexValueType>(m_Size[i])`.  The cast turns a size of 2^63 or more
into a negative value, and the sum is the 64-bit sum. -/
def ImageRegion.IsInside (region : ImageRegion) (p : Index2) : Bool :=
  !(decide (p.i0 < region.index.i0))
    && !(decide (p.i0 ≥ addIndexValue region.index.i0 (toIndexValue region.size.s0)))
    && !(decide (p.i1 < region.index.i1))
    && !(decide (p.i1 ≥ addIndexValue region.index.i1 (toIndexValue region.size.s1)))

/-- `ITKHelpers::Get4NeighborIndicesInsideRegion(pixel, region)`. -/
def Get4NeighborIndicesInsideRegion (pixel : Index2) (region : ImageRegion) : List Index2 :=
  let indices : List Index2 := []
  let indices := if region.IsInside (pixel.add (-1) 0) then indices ++ [pixel.add (-1) 0] else indices
  let indices := if region.IsInside (pixel.add 1 0) then indices ++ [pixel.add 1 0] else indices
  let indices := if region.IsInside (pixel.add 0 (-1)) then indices ++ [pixel.add 0 (-1)] else indices
  let indices := if region.IsInside (pixel.add 0 1) then indices ++ [pixel.add 0 1] else indices
  indices

/-- `itk::VectorImage<unsigned char, 2>` as read from a file: the region starts at index
(0, 0); `pixels` lists the pixels row by row (`index[0]` runs fastest), each pixel a vector of
components. -/
structure VectorImage where
  width : Nat
  height : Nat
  numberOfComponentsPerPixel : Nat
  pixels : List (List Nat)
  deriving DecidableEq, Repr

/-- `image->GetLargestPossibleRegion()`. -/
def VectorImage.region (image : VectorImage) : ImageRegion :=
  ⟨⟨0, 0⟩, ⟨image.width, image.height⟩⟩

/-- Number of pixels of the image. -/
def VectorImage.pixelCount (image : VectorImage) : Nat := image.width * image.height

/-- Index of the `k`-th pixel in raster order. -/
def VectorImage.indexOf (image : VectorImage) (k : Nat) : Index2 :=
  ⟨((k % image.width : Nat) : Int), ((k / image.width : Nat) : Int)⟩

/-- Modelled from the spec: the coordinates for which the image source, which is missing
here, holds a pixel (§6): the image has the pixels `(0, 0)` to `(width - 1, height - 1)`. -/
def VectorImage.contains (image : VectorImage) (p : Index2) : Bool :=
  decide (0 ≤ p.i0) && decide (p.i0 < (image.width : Int)) && decide (0 ≤ p.i1)
    && decide (p.i1 < (image.height : Int))

/-- Modelled from the spec: the adjacency enumeration of the missing image source (§6) in the
4-connected scheme: those of the four coordinates next to `p` along an axis that are pixels
of the image. -/
def VectorImage.neighbours (image : VectorImage) (p : Index2) : List Index2 :=
  [p.add (-1) 0, p.add 1 0, p.add 0 (-1), p.add 0 1].filter image.contains

/-- The pixels of a mask image that are white: every component is 255. -/
def whitePixels (mask : VectorImage) : List Index2 :=
  ((List.range mask.pixelCount).filter
    (fun k => (mask.pixels.getD k []).all (fun c => c == 255))).map mask.indexOf

/-- The two labels of a segment mask (`ForegroundBackgroundSegmentMaskPixelTypeEnum`). -/
inductive Label where
  | FOREGROUND
  | BACKGROUND
  deriving DecidableEq, Repr

/-- A segment mask: the label of every pixel, in raster order. -/
abbrev SegmentMask := List Label

/-- Modelled from the spec: the failures a request to the missing `SegmentationEngine` can end
in (§7, error taxonomy). -/
inductive EngineError where
  | EmptyImage
  | InvalidSeedSet
  | ConflictingSeed
  | InvalidConfiguration
  deriving DecidableEq, Repr

/-- What the caller has handed to `ImageGraphCut` by the time `PerformSegmentation` runs:
`SetImage`, `SetNumberOfHistogramBins`, `SetLambda`, `SetSources`, `SetSinks`. -/
structure EngineInput where
  image : VectorImage
  numberOfHistogramBins : Nat
  lambda : ℚ
  sources : List Index2
  sinks : List Index2
  deriving DecidableEq, Repr

/-! ## The example program -/

/-- What `main` does to the outside world, in order. -/
inductive MainEvent where
  /-- The usage line on `std::cerr`. -/
  | cerrUsage
  /-- The four arguments echoed on `std::cout`. -/
  | coutArguments (imageFilename foregroundFilename backgroundFilename outputFilename : List Char)
  /-- `reader->SetFileName(imageFilename); reader->Update()`. -/
  | readImage (filename : List Char)
  /-- The number of components per pixel echoed on `std::cout`. -/
  | coutComponents (n : Nat)
  | coutStarting
  | setImage (image : VectorImage)
  | setNumberOfHistogramBins (bins : Nat)
  /-- `GraphCut.SetLambda(.01)`; the literal is taken as the exact rational. -/
  | setLambda (lambda : ℚ)
  | setSources (pixels : List Index2)
  | setSinks (pixels : List Index2)
  | performSegmentation
  /-- `segmentMask->Write<unsigned char>(filename, foreground value, background value)`. -/
  | writeMask (filename : List Char) (mask : SegmentMask) (foregroundValue backgroundValue : Nat)
  /-- `segmentMask->ApplyToImage(result, backgroundColor)`. -/
  | applyToImage (backgroundColor : List Nat)
  /-- `ITKHelpers::WriteImage(result, filename)`. -/
  | writeImage (filename : List Char) (image : VectorImage)
  deriving DecidableEq, Repr

/-- How `main` ends: it returns a status, or an exception nobody catches ends the process. -/
inductive Exit where
  | returned (status : Nat)
  | uncaughtException
  deriving DecidableEq, Repr

/-- `EXIT_FAILURE`. -/
def EXIT_FAILURE : Nat := 1

/-- Result of running `main`. -/
structure MainOutcome where
  trace : List MainEvent
  exit : Exit
  deriving DecidableEq, Repr

/-- `main(argc, argv)` of `ImageGraphCutSegmentationExample.cpp`; `argc` is `argv.length`.

`readImage` maps a file name to the image an `itk::ImageFileReader` decodes from it, when it
can.  `engine` stands for `ImageGraphCut::PerformSegmentation` followed by `GetSegmentMask`,
and `applyToImage` for `ForegroundBackgroundSegmentMask::ApplyToImage`; both live outside
the files at hand. -/
def main (readImage : List Char → Option VectorImage)
    (engine : EngineInput → Except EngineError SegmentMask)
    (applyToImage : SegmentMask → VectorImage → List Nat → VectorImage)
    (argv : List (List Char)) : MainOutcome :=
  -- Verify arguments
  if argv.length ≠ 5 then ⟨[.cerrUsage], .returned EXIT_FAILURE⟩
  else
    -- Parse arguments
    let imageFilename := argv.getD 1 []
    let foregroundFilename := argv.getD 2 []
    let backgroundFilename := argv.getD 3 []
    let outputFilename := argv.getD 4 []
    let t0 : List MainEvent :=
      [.coutArguments imageFilename foregroundFilename backgroundFilename outputFilename,
        .readImage imageFilename]
    -- Read the image
    match readImage imageFilename with
    | none => ⟨t0, .uncaughtException⟩
    | some image =>
      -- Perform the cut
      let foregroundPixels : List Index2 := []
      let backgroundPixels : List Index2 := []
      let t1 : List MainEvent := t0 ++
        [.coutComponents image.numberOfComponentsPerPixel, .coutStarting, .setImage image,
          .setNumberOfHistogramBins 20, .setLambda (1 / 100), .setSources foregroundPixels,
          .setSinks backgroundPixels, .performSegmentation]
      match engine ⟨image, 20, 1 / 100, foregroundPixels, backgroundPixels⟩ with
      | .error _ => ⟨t1, .uncaughtException⟩
      | .ok segmentMask =>
        -- Get and write the result
        let result := image
        let backgroundColor : List Nat := List.replicate 3 0
        let result := applyToImage segmentMask result backgroundColor
        ⟨t1 ++ [.writeMask "resultingMask.png".toList segmentMask 0 255,
            .applyToImage backgroundColor, .writeImage outputFilename result],
          .returned 0⟩

/-! ## The segmentation engine

`ImageGraphCut` (`ImageGraphCut.h`) is not among the files at hand.  What follows models it
from the specification: cost function (§4.2), graph builder (§4.3), min-cut solver (§4.4) and
the orchestration (§4.5). -/

/-- Modelled from the spec: the energy terms of §4.2 for one request, the part of
`ImageGraphCut` that is missing here together with the appearance models behind it.
`DataCost p l` is the cost of giving pixel `p` the label `l`, `SmoothnessCost p q` the cost
of separating the neighbours `p` and `q`.  The spec has them real-valued (a negative
logarithm, an exponential); they are taken as exact rationals. -/
structure CostFunction where
  DataCost : Index2 → Label → ℚ
  SmoothnessCost : Index2 → Index2 → ℚ

/-- Modelled from the spec: what §4.1 and §4.2 promise about the missing cost function:
data costs are non-negative, smoothness costs are non-negative and symmetric. -/
def CostFunction.WellFormed (cost : CostFunction) : Prop :=
  (∀ p l, 0 ≤ cost.DataCost p l) ∧ (∀ p q, 0 ≤ cost.SmoothnessCost p q) ∧
    (∀ p q, cost.SmoothnessCost p q = cost.SmoothnessCost q p)

/-- Modelled from the spec: the flow network of §3 built by the missing `GraphBuilder`: nodes
`0 .. N-1`, a capacity for every ordered pair of nodes (0 where there is no edge) and the two
terminals. -/
structure Network (N : Nat) where
  capacity : Fin N → Fin N → ℚ
  source : Fin N
  sink : Fin N

/-- Modelled from the spec: the residual capacities of §3, the mutable state of the missing
`MinCutSolver`. -/
abbrev Residual (N : Nat) := Fin N → Fin N → ℚ

/-- Modelled from the spec: the search tree the missing `MinCutSolver` grows from SOURCE
(§4.4, step 1), as the list of (node, parent) pairs in the order the nodes joined, newest
first.  The root is not listed. -/
abbrev SearchTree (N : Nat) := List (Fin N × Fin N)

/-- Modelled from the spec: membership of a node in the search tree of the missing
`MinCutSolver`. -/
def inTree {N : Nat} (root : Fin N) (tree : SearchTree N) (v : Fin N) : Bool :=
  decide (v = root) || tree.any (fun e => decide (e.1 = v))

/-- Modelled from the spec: the fixed order in which the missing `MinCutSolver` tries
tree-growth edges (§4.4, determinism): node creation order, tail first, then head. -/
def growthEdges (N : Nat) : List (Fin N × Fin N) :=
  (List.finRange N).flatMap (fun u => (List.finRange N).map (fun v => (u, v)))

/-- Modelled from the spec: the first non-saturated edge, in the fixed order, that leads from
the search tree of the missing `MinCutSolver` to a node outside it. -/
def nextEdge {N : Nat} (r : Residual N) (root : Fin N) (tree : SearchTree N) :
    Option (Fin N × Fin N) :=
  (growthEdges N).find?
    (fun e => inTree root tree e.1 && !inTree root tree e.2 && decide (0 < r e.1 e.2))

/-- Modelled from the spec: tree growth of the missing `MinCutSolver` (§4.4, step 1): add
nodes along non-saturated edges until none can be added (`k` bounds the number of
additions). -/
def grow {N : Nat} (r : Residual N) (root : Fin N) : Nat → SearchTree N → SearchTree N
  | 0, tree => tree
  | k + 1, tree =>
    match nextEdge r root tree with
    | none => tree
    | some e => grow r root k ((e.2, e.1) :: tree)

/-- Modelled from the spec: the path of the missing `MinCutSolver` from the root of the
search tree to a node, following parents (§4.4, step 1). -/
def pathTo {N : Nat} : SearchTree N → Fin N → List (Fin N)
  | [], v => [v]
  | e :: rest, v => if v = e.1 then pathTo rest e.2 ++ [v] else pathTo rest v

/-- Modelled from the spec: the bottleneck of a path in the missing `MinCutSolver`, the
minimum residual capacity of its edges (§4.4, step 2). -/
def bottleneck {N : Nat} (r : Residual N) : List (Fin N) → ℚ
  | [] => 0
  | [_] => 0
  | [u, v] => r u v
  | u :: v :: w :: rest => min (r u v) (bottleneck r (v :: w :: rest))

/-- Modelled from the spec: pushing `b` units of flow over one edge in the missing
`MinCutSolver`: the edge loses `b` of residual capacity, its reverse gains `b`. -/
def push {N : Nat} (r : Residual N) (u v : Fin N) (b : ℚ) : Residual N :=
  fun x y => if x = u ∧ y = v then r x y - b else if x = v ∧ y = u then r x y + b else r x y

/-- Modelled from the spec: pushing `b` units of flow along a path in the missing
`MinCutSolver` (§4.4, step 2). -/
def pushPath {N : Nat} (r : Residual N) (b : ℚ) : List (Fin N) → Residual N
  | [] => r
  | [_] => r
  | u :: v :: rest => pushPath (push r u v b) b (v :: rest)

/-- Modelled from the spec: the missing `MinCutSolver` of §4.4.  Repeatedly: grow the search
tree from SOURCE along non-saturated edges; when it reaches SINK, push the bottleneck along
the path found and start over; when it cannot reach SINK, stop and return the residual
capacities and the tree, whose nodes are the nodes still connected to SOURCE.  `none` when
`fuel` iterations did not suffice.

The spec grows a second tree from SINK and keeps both trees between iterations by
re-attaching orphans; these are ways of finding the next augmenting path, and the model
searches from SOURCE anew in every iteration. -/
def solve {N : Nat} (net : Network N) : Nat → Residual N → Option (Residual N × SearchTree N)
  | 0, _ => none
  | fuel + 1, r =>
    let tree := grow r net.source N []
    if inTree net.source tree net.sink then
      let path := pathTo tree net.sink
      solve net fuel (pushPath r (bottleneck r path) path)
    else some (r, tree)

/-- Modelled from the spec: the designated `+∞` capacity the missing `GraphBuilder` gives to
the terminal edge of a seed (§4.3): a value above the total of all other capacities, so that
no minimum cut can contain such an edge. -/
def seedSentinel (cost : CostFunction) (image : VectorImage) (lambda : ℚ) : ℚ :=
  1 + (∑ k : Fin image.pixelCount,
        (cost.DataCost (image.indexOf k) Label.FOREGROUND
          + cost.DataCost (image.indexOf k) Label.BACKGROUND))
    + ∑ k : Fin image.pixelCount, ∑ j : Fin image.pixelCount,
        lambda * cost.SmoothnessCost (image.indexOf k) (image.indexOf j)

/-- Modelled from the spec: the network the missing `GraphBuilder` builds (§4.3).  Node `k`
below the pixel count is the `k`-th pixel in raster order, the next node is SOURCE, the last
is SINK.  The terminal edges of a pixel run from SOURCE to the pixel, with the capacity the
spec calls capacity(pixel→SOURCE), and from the pixel to SINK; neighbour edges join
4-connected pixels in both directions. -/
def buildNetwork (cost : CostFunction) (image : VectorImage) (lambda : ℚ)
    (fgSeeds bgSeeds : List Index2) : Network (image.pixelCount + 2) where
  source := ⟨image.pixelCount, by omega⟩
  sink := ⟨image.pixelCount + 1, by omega⟩
  capacity := fun u v =>
    if u.val = image.pixelCount then
      -- SOURCE to pixel
      if v.val < image.pixelCount then
        if image.indexOf v ∈ fgSeeds then seedSentinel cost image lambda
        else if image.indexOf v ∈ bgSeeds then 0
        else cost.DataCost (image.indexOf v) Label.BACKGROUND
      else 0
    else if u.val < image.pixelCount then
      if v.val = image.pixelCount + 1 then
        -- pixel to SINK
        if image.indexOf u ∈ fgSeeds then 0
        else if image.indexOf u ∈ bgSeeds then seedSentinel cost image lambda
        else cost.DataCost (image.indexOf u) Label.FOREGROUND
      else if v.val < image.pixelCount then
        -- pixel to neighbouring pixel
        if image.indexOf v ∈ image.neighbours (image.indexOf u) then
          lambda * cost.SmoothnessCost (image.indexOf u) (image.indexOf v)
        else 0
      else 0
    else 0

/-- Modelled from the spec: the stages of one request to the missing `SegmentationEngine`
(§4.5), in the order they are performed. -/
inductive Stage where
  | validated
  | appearanceModelsBuilt
  | networkBuilt
  | solved
  deriving DecidableEq, Repr

/-- Modelled from the spec: how a request to the missing `SegmentationEngine` ends: with a
label map, with one of the errors of §7, or with the solver still running when the
iteration budget of the model is used up. -/
inductive EngineResult where
  | labelMap (mask : SegmentMask)
  | failed (error : EngineError)
  | outOfFuel
  deriving DecidableEq, Repr

/-- Modelled from the spec: a request to the missing `SegmentationEngine`: the stages it went
through and how it ended. -/
structure EngineOutcome where
  stages : List Stage
  result : EngineResult
  deriving DecidableEq, Repr

/-- Modelled from the spec: the checks the missing `SegmentationEngine` makes before any
graph work (§4.5, §7), in the order §4.5 lists them: seed sets non-empty, seed sets
disjoint, image non-empty; then seeds inside the image and the configuration. -/
def validate (input : EngineInput) : Option EngineError :=
  if input.sources = [] ∨ input.sinks = [] then some .InvalidSeedSet
  else if ∃ p ∈ input.sources, p ∈ input.sinks then some .ConflictingSeed
  else if input.image.pixelCount = 0 then some .EmptyImage
  else if ∃ p ∈ input.sources ++ input.sinks, input.image.contains p = false then
    some .InvalidSeedSet
  else if input.numberOfHistogramBins < 1 ∨ input.lambda < 0 then some .InvalidConfiguration
  else none

/-- Modelled from the spec: the label map the missing `SegmentationEngine` emits (§3,
partition): a pixel is FOREGROUND when its node is still connected to SOURCE. -/
def emitLabeling {N : Nat} (pixelCount : Nat) (source : Fin N) (tree : SearchTree N) :
    SegmentMask :=
  (List.range pixelCount).map (fun k =>
    if h : k < N then
      (if inTree source tree ⟨k, h⟩ then Label.FOREGROUND else Label.BACKGROUND)
    else Label.BACKGROUND)

/-- Modelled from the spec: the missing `ImageGraphCut::PerformSegmentation` followed by
`GetSegmentMask`, as the `SegmentationEngine` of §4.5: validate, build the appearance models
(here: obtain the cost function of the request from `appearance`), build the network, run
the min-cut solver, emit the labeling.  `fuel` bounds the iterations of the solver. -/
def PerformSegmentation (appearance : EngineInput → CostFunction) (fuel : Nat)
    (input : EngineInput) : EngineOutcome :=
  match validate input with
  | some error => ⟨[], .failed error⟩
  | none =>
    let cost := appearance input
    let net := buildNetwork cost input.image input.lambda input.sources input.sinks
    match solve net fuel net.capacity with
    | none => ⟨[.validated, .appearanceModelsBuilt, .networkBuilt], .outOfFuel⟩
    | some (_, tree) =>
      ⟨[.validated, .appearanceModelsBuilt, .networkBuilt, .solved],
        .labelMap (emitLabeling input.image.pixelCount net.source tree)⟩

/-! ## Notions used to reason about the solver -/

/-- A search tree is well formed for the residual capacities `r`: every node joined through
a non-saturated edge from a node that was in the tree before it, and no node joined twice. -/
def TreeOK {N : Nat} (r : Residual N) (root : Fin N) : SearchTree N → Prop
  | [] => True
  | e :: rest =>
    TreeOK r root rest ∧ inTree root rest e.2 = true ∧ inTree root rest e.1 = false ∧
      0 < r e.2 e.1

/-- Every edge of the path has residual capacity at least `b`. -/
def Admissible {N : Nat} (r : Residual N) (b : ℚ) : List (Fin N) → Prop
  | [] => True
  | [_] => True
  | u :: v :: rest => b ≤ r u v ∧ Admissible r b (v :: rest)

/-- Total of `c` over the ordered pairs that leave the node set `S`: the capacity of the cut
`S` when `c` is the capacity function. -/
def cutSum {N : Nat} (c : Fin N → Fin N → ℚ) (S : Fin N → Bool) : ℚ :=
  ∑ x : Fin N, ∑ y : Fin N, if S x = true ∧ S y = false then c x y else 0

/-- Indicator of a node set, as a rational. -/
def ind {N : Nat} (S : Fin N → Bool) (v : Fin N) : ℚ := if S v = true then 1 else 0

/-- Every edge of the path is non-saturated. -/
def EdgesPositive {N : Nat} (r : Residual N) : List (Fin N) → Prop
  | [] => True
  | [_] => True
  | u :: v :: rest => 0 < r u v ∧ EdgesPositive r (v :: rest)

/-- All residual capacities are whole multiples of `1 / D`. -/
def OnGrid {N : Nat} (D : ℚ) (r : Residual N) : Prop :=
  ∀ x y, ∃ k : ℤ, r x y * D = k

/-- What holds of the residual capacities `r` between two iterations of the solver, when
`val` units of flow have been pushed so far: no residual capacity is negative; across every
cut that separates SOURCE from SINK the residual capacities add up to the capacity of the
cut less `val`; and all residual capacities are whole multiples of `1 / D`. -/
structure SolverInv {N : Nat} (net : Network N) (D val : ℚ) (r : Residual N) : Prop where
  nonneg : ∀ x y, 0 ≤ r x y
  cut : ∀ S : Fin N → Bool, S net.source = true → S net.sink = false →
    cutSum r S = cutSum net.capacity S - val
  grid : OnGrid D r

/-- The node set that holds SOURCE alone. -/
def sourceOnly {N : Nat} (net : Network N) : Fin N → Bool := fun v => decide (v = net.source)

/-! ## Labelings and their energy -/

/-- Modelled from the spec: the label that a label map of the missing `SegmentationEngine`
gives to the pixel `p` of the image (§3, partition / labeling), if `p` is one of the pixels
the map covers. -/
def labelAt (image : VectorImage) (mask : SegmentMask) (p : Index2) : Option Label :=
  mask[p.i1.toNat * image.width + p.i0.toNat]?

/-- Modelled from the spec: a label map of the missing `SegmentationEngine` as a labeling, a
function from pixels to labels (§3, partition / labeling). -/
def maskLabeling (image : VectorImage) (mask : SegmentMask) : Index2 → Label :=
  fun p => (labelAt image mask p).getD Label.BACKGROUND

/-- Modelled from the spec: a labeling is consistent with the hard seed constraints of the
missing `GraphBuilder` (§4.3, §8 seed fidelity): foreground seeds are FOREGROUND, background
seeds are BACKGROUND. -/
def SeedConsistent (fgSeeds bgSeeds : List Index2) (L : Index2 → Label) : Prop :=
  (∀ p ∈ fgSeeds, L p = Label.FOREGROUND) ∧ (∀ p ∈ bgSeeds, L p = Label.BACKGROUND)

/-- Modelled from the spec: the energy that the missing `MinCutSolver` minimises (§4.4,
correctness invariant): `Σ DataCost(p, label(p)) + λ Σ SmoothnessCost(p, q)`, the second sum
over the pairs of neighbouring pixels with different labels, each pair counted once (`p`
before `q` in raster order). -/
def energy (cost : CostFunction) (lambda : ℚ) (image : VectorImage) (L : Index2 → Label) : ℚ :=
  (∑ k : Fin image.pixelCount, cost.DataCost (image.indexOf k) (L (image.indexOf k)))
    + lambda * ∑ k : Fin image.pixelCount, ∑ j : Fin image.pixelCount,
        if k < j ∧
            image.indexOf j ∈ image.neighbours (image.indexOf k) ∧
            L (image.indexOf k) ≠ L (image.indexOf j)
        then cost.SmoothnessCost (image.indexOf k) (image.indexOf j) else 0

/-- The node of a pixel in a network with `n` pixel nodes followed by SOURCE and SINK. -/
def pixelNode {n : Nat} (k : Fin n) : Fin (n + 2) := Fin.castSucc (Fin.castSucc k)

/-- The cut that a labeling denotes: SOURCE and the FOREGROUND pixels. -/
def cutOfLabeling (image : VectorImage) (L : Index2 → Label) :
    Fin (image.pixelCount + 2) → Bool :=
  fun v =>
    if v.val < image.pixelCount then decide (L (image.indexOf v) = Label.FOREGROUND)
    else decide (v.val = image.pixelCount)

/-- What the seeds contribute to the data term of every labeling that respects them. -/
def seedCost (cost : CostFunction) (image : VectorImage) (fgSeeds bgSeeds : List Index2) : ℚ :=
  ∑ k : Fin image.pixelCount,
    if image.indexOf k ∈ fgSeeds then cost.DataCost (image.indexOf k) Label.FOREGROUND
    else if image.indexOf k ∈ bgSeeds then cost.DataCost (image.indexOf k) Label.BACKGROUND
    else 0

/-! ## Example data -/

/-- An argument vector with four arguments after the program name. -/
def exampleArgv : List (List Char) :=
  ["ImageGraphCutSegmentationExample".toList, "image.png".toList, "foreground.png".toList,
    "background.png".toList, "output.png".toList]

/-- A grayscale image of two pixels. -/
def exampleImage : VectorImage := ⟨2, 1, 1, [[10], [200]]⟩

/-- A foreground mask for `exampleImage`: the left pixel is white. -/
def exampleForegroundMask : VectorImage := ⟨2, 1, 1, [[255], [0]]⟩

/-- A background mask for `exampleImage`: the right pixel is white. -/
def exampleBackgroundMask : VectorImage := ⟨2, 1, 1, [[0], [255]]⟩

/-- The files of the example run. -/
def exampleFiles (name : List Char) : Option VectorImage :=
  if name = "image.png".toList then some exampleImage
  else if name = "foreground.png".toList then some exampleForegroundMask
  else if name = "background.png".toList then some exampleBackgroundMask
  else none

/-- An engine that answers every request with the same two-pixel label map. -/
def exampleEngine (_ : EngineInput) : Except EngineError SegmentMask :=
  .ok [Label.FOREGROUND, Label.BACKGROUND]

/-- A file-extension function for the examples: the text after the last dot. -/
def exampleGetFileExtension (filename : List Char) : List Char :=
  (filename.reverse.takeWhile (fun c => c.toNat != 46)).reverse

/-- A path function for the examples: the text up to and including the last slash. -/
def exampleGetPath (filename : List Char) : List Char :=
  (filename.reverse.dropWhile (fun c => c.toNat != 47)).reverse

/-- A cost function for the examples: every data cost and every smoothness cost is 1. -/
def exampleCost : CostFunction := ⟨fun _ _ => 1, fun _ _ => 1⟩

/-- A request on `exampleImage`: the left pixel is the foreground seed, the right pixel the
background seed, smoothness weight 1. -/
def exampleRequest : EngineInput := ⟨exampleImage, 20, 1, [⟨0, 0⟩], [⟨1, 0⟩]⟩

/-- A request on a 2 x 2 image with one seed of each kind in opposite corners and smoothness
weight 0. -/
def exampleRequestSquare : EngineInput :=
  ⟨⟨2, 2, 1, [[10], [20], [200], [210]]⟩, 20, 0, [⟨0, 0⟩], [⟨1, 1⟩]⟩

/-! ## Regions around a pixel -/

/-- `ITKHelpers::GetRegionInRadiusAroundPixel(pixel, radius)`.  `radius` is an
`unsigned int`: `pixel[0] - radius` is computed in the signed index type, to which `radius`
converts without loss, and `radius*2 + 1` is computed in 32-bit unsigned arithmetic before it
is stored in the size. -/
def GetRegionInRadiusAroundPixel (pixel : Index2) (radius : Nat) : ImageRegion :=
  let lowerLeft : Index2 := ⟨pixel.i0 - (radius : Int), pixel.i1 - (radius : Int)⟩
  let size : Size2 := ⟨(radius * 2 + 1) % 2 ^ 32, (radius * 2 + 1) % 2 ^ 32⟩
  ⟨lowerLeft, size⟩

/-- `ITKHelpers::GetRegionCenter(region)`.  In `region.GetIndex()[0] + region.GetSize()[0] / 2`
the index converts to the unsigned size type, the sum is taken modulo 2^64 and converts back
to the signed index type on assignment. -/
def GetRegionCenter (region : ImageRegion) : Index2 :=
  ⟨toIndexValue ((toSizeValue region.index.i0 + region.size.s0 / 2) % 2 ^ 64),
    toIndexValue ((toSizeValue region.index.i1 + region.size.s1 / 2) % 2 ^ 64)⟩

/-! ## Chains of neighbouring pixels -/

/-- A chain of pixels of the region: every pixel lies inside the region and every pixel after
the first is among the 4-neighbours, inside the region, of the pixel before it. -/
def IsNeighbourChain (region : ImageRegion) : List Index2 → Prop
  | [] => True
  | [p] => region.IsInside p = true
  | p :: q :: rest =>
    region.IsInside p = true ∧ q ∈ Get4NeighborIndicesInsideRegion p region ∧
      IsNeighbourChain region (q :: rest)

/-- One step of a chain: from a pixel inside the region to one of its 4-neighbours inside the
region. -/
def NeighbourStep (region : ImageRegion) (a b : Index2) : Prop :=
  region.IsInside a = true ∧ b ∈ Get4NeighborIndicesInsideRegion a region

/-- A small region for the examples: 3 x 2 pixels with corner (-1, 0). -/
def exampleRegion : ImageRegion := ⟨⟨-1, 0⟩, ⟨3, 2⟩⟩

end ImageGraphCut

/-! # Theorems -/

namespace ImageGraphCut

/-! ## Stream lemmas -/

theorem takeWhile_stop {α : Type} (p : α → Bool) (l : List α) (c : α) (r : List α)
    (hl : ∀ a ∈ l, p a = true) (hc : p c = false) : (l ++ c :: r).takeWhile p = l := by
  rw [List.takeWhile_append_of_pos hl, List.takeWhile_cons_of_neg (by simp [hc])]; simp

theorem dropWhile_stop {α : Type} (p : α → Bool) (l : List α) (c : α) (r : List α)
    (hl : ∀ a ∈ l, p a = true) (hc : p c = false) : (l ++ c :: r).dropWhile p = c :: r := by
  rw [List.dropWhile_append_of_pos hl, List.dropWhile_cons_of_neg (by simp [hc])]

theorem takeWhile_all {α : Type} (p : α → Bool) (l : List α)
    (hl : ∀ a ∈ l, p a = true) : l.takeWhile p = l := List.takeWhile_eq_self_iff.mpr hl

theorem dropWhile_all {α : Type} (p : α → Bool) (l : List α)
    (hl : ∀ a ∈ l, p a = true) : l.dropWhile p = [] := List.dropWhile_eq_nil_iff.mpr hl

theorem foldl_digits (ds : List Char) (acc : Nat) :
    ds.foldl (fun acc c => 10 * acc + (c.toNat - 48)) acc = acc * 10 ^ ds.length + decimalValue ds := by
  induction ds generalizing acc with
  | nil => simp [decimalValue]
  | cons c cs ih =>
    simp only [List.foldl_cons, ih, decimalValue, List.length_cons]
    ring

theorem digitsValue_eq (ds : List Char) : Stream.digitsValue ds = decimalValue ds := by
  simp [Stream.digitsValue, foldl_digits]

theorem isDigit_not_space (c : Char) (h : isDigit c = true) : isSpace c = false := by
  simp only [isDigit, isSpace, Bool.and_eq_true, decide_eq_true_eq, Bool.or_eq_false_iff,
    decide_eq_false_iff_not, Bool.and_eq_false_imp] at *
  omega

/-- Extraction of a word that is followed by white space or by the end of the buffer. -/
theorem extractString_word (w r str : List Char) (hw : w ≠ [])
    (hw2 : ∀ c ∈ w, isSpace c = false)
    (hr : ∀ c ∈ r.head?, isSpace c = true) :
    (Stream.mk (w ++ r) false false).extractString str = (⟨r, r.isEmpty, false⟩, w) := by
  obtain ⟨k, ks, rfl⟩ := List.exists_cons_of_ne_nil hw
  have hk : isSpace k = false := hw2 k (by simp)
  have hnot : ∀ a ∈ k :: ks, (fun c => !isSpace c) a = true := by
    intro a ha; simp [hw2 a ha]
  unfold Stream.extractString
  simp only [Stream.good, Bool.not_false, Bool.and_self, if_true, List.cons_append]
  rw [List.dropWhile_cons_of_neg (by simp [hk])]
  simp only
  rw [← List.cons_append]
  cases r with
  | nil => simp [takeWhile_all _ _ hnot, dropWhile_all _ _ hnot]
  | cons c t =>
    have hc : isSpace c = true := hr c (by simp)
    rw [takeWhile_stop _ _ _ _ hnot (by simp [hc]), dropWhile_stop _ _ _ _ hnot (by simp [hc])]


theorem isDigit_not_sign (c : Char) (h : isDigit c = true) : c.toNat ≠ 45 ∧ c.toNat ≠ 43 := by
  simp only [isDigit, Bool.and_eq_true, decide_eq_true_eq] at h
  omega

theorem splitSign_literal (negative : Bool) (ds : List Char) (hds : ds ≠ [])
    (hds2 : ∀ c ∈ ds, isDigit c = true) :
    Stream.splitSign (signText negative ++ ds) = (negative, ds) := by
  cases negative with
  | true => simp [signText, Stream.splitSign]
  | false =>
    obtain ⟨d, t, rfl⟩ := List.exists_cons_of_ne_nil hds
    have hd := isDigit_not_sign d (hds2 d (by simp))
    simp [signText, Stream.splitSign, hd.1, hd.2]

theorem literal_head_not_space (negative : Bool) (ds : List Char) (hds : ds ≠ [])
    (hds2 : ∀ c ∈ ds, isDigit c = true) :
    ∃ c t, signText negative ++ ds = c :: t ∧ isSpace c = false := by
  cases negative with
  | true => exact ⟨Char.ofNat 45, ds, by simp [signText], by decide⟩
  | false =>
    obtain ⟨d, t, rfl⟩ := List.exists_cons_of_ne_nil hds
    exact ⟨d, t, by simp [signText], isDigit_not_space d (hds2 d (by simp))⟩

/-- Extraction of an integer literal that ends the buffer, after any white space. -/
theorem extractInt_literal (sep : List Char) (negative : Bool) (ds : List Char) (val : Int)
    (hsep : ∀ c ∈ sep, isSpace c = true) (hds : ds ≠ [])
    (hds2 : ∀ c ∈ ds, isDigit c = true) :
    ((Stream.mk (sep ++ (signText negative ++ ds)) false false).extractInt val).2
        = clampInt (signedValue negative ds) ∧
    ((Stream.mk (sep ++ (signText negative ++ ds)) false false).extractInt val).1.buf = [] := by
  obtain ⟨c, t, hct, hc⟩ := literal_head_not_space negative ds hds hds2
  have hsplit := splitSign_literal negative ds hds hds2
  unfold Stream.extractInt
  simp only [Stream.good, Bool.not_false, Bool.and_self, if_true]
  rw [hct, dropWhile_stop _ _ _ _ hsep hc]
  simp only
  rw [← hct, hsplit]
  simp only [takeWhile_all _ _ hds2, dropWhile_all _ _ hds2, digitsValue_eq]
  have : ds.isEmpty = false := by cases ds <;> simp_all
  simp only [this, Bool.false_eq_true, if_false]
  unfold clampInt signedValue
  split_ifs <;> simp

theorem newline_toNat : newline.toNat = 10 := by decide

/-- `getline` on a stream whose next line is ended by a line feed. -/
theorem getline_line (l t str : List Char) (hl : ∀ c ∈ l, c.toNat ≠ 10) :
    (Stream.mk (l ++ newline :: t) false false).getline str = (⟨t, false, false⟩, l) := by
  have hp : ∀ a ∈ l, (fun c : Char => c.toNat != 10) a = true := by
    intro a ha
    simpa using hl a ha
  unfold Stream.getline
  simp only [Stream.good, Bool.not_false, Bool.and_self, if_true]
  rw [takeWhile_stop _ _ _ _ hp (by simp [newline_toNat]),
    dropWhile_stop _ _ _ _ hp (by simp [newline_toNat])]

/-- `getline` on a stream whose remaining text holds no line feed. -/
theorem getline_last (l str : List Char) (hl : ∀ c ∈ l, c.toNat ≠ 10) :
    (Stream.mk l false false).getline str = (⟨[], true, l.isEmpty⟩, l) := by
  have hp : ∀ a ∈ l, (fun c : Char => c.toNat != 10) a = true := by
    intro a ha
    simpa using hl a ha
  unfold Stream.getline
  simp only [Stream.good, Bool.not_false, Bool.and_self, if_true]
  rw [takeWhile_all _ _ hp, dropWhile_all _ _ hp]

theorem clear_write_of_buf_nil (s : Stream) (l : List Char) (hs : s.buf = []) :
    s.clear.write l = ⟨l, false, false⟩ := by
  simp [Stream.clear, Stream.write, Stream.good, hs]

theorem kw_facts (kw : List Char) (h : kw = kwForeground ∨ kw = kwBackground) :
    kw ≠ [] ∧ (∀ c ∈ kw, isSpace c = false) ∧ (∀ c ∈ kw, c.toNat ≠ 10) := by
  rcases h with rfl | rfl
  · exact ⟨by decide, by decide, by decide⟩
  · exact ⟨by decide, by decide, by decide⟩

theorem kw_ne : kwForeground ≠ kwBackground := by decide

theorem headerLine_no_newline (kw sep : List Char) (negative : Bool) (ds : List Char)
    (hkw : ∀ c ∈ kw, c.toNat ≠ 10) (hsep : ∀ c ∈ sep, c.toNat ≠ 10)
    (hds : ∀ c ∈ ds, isDigit c = true) :
    ∀ c ∈ headerLine kw sep negative ds, c.toNat ≠ 10 := by
  intro c hc
  simp only [headerLine, List.mem_append] at hc
  rcases hc with ((h | h) | h) | h
  · exact hkw c h
  · exact hsep c h
  · cases negative with
    | true =>
      simp only [signText, if_true, List.mem_singleton] at h
      subst h; decide
    | false => simp [signText] at h
  · have := hds c h
    simp only [isDigit, Bool.and_eq_true, decide_eq_true_eq] at this
    omega

/-- The two header lines, as the stringstream sees them: the keyword and the clamped value
come out, and the buffer is left empty for the next line. -/
theorem parse_headerLine (s : Stream) (hs : s.buf = []) (kw sep : List Char) (negative : Bool)
    (ds : List Char) (hkw : kw = kwForeground ∨ kw = kwBackground)
    (hsep : sep ≠ []) (hsep2 : ∀ c ∈ sep, isSpace c = true)
    (hds : ds ≠ []) (hds2 : ∀ c ∈ ds, isDigit c = true) :
    ((s.clear.write (headerLine kw sep negative ds)).extractString []).2 = kw ∧
    (((s.clear.write (headerLine kw sep negative ds)).extractString []).1.extractInt 0).2
      = clampInt (signedValue negative ds) ∧
    (((s.clear.write (headerLine kw sep negative ds)).extractString []).1.extractInt 0).1.buf
      = [] := by
  obtain ⟨k1, k2, _⟩ := kw_facts kw hkw
  rw [clear_write_of_buf_nil s _ hs]
  have hr : ∀ c ∈ (sep ++ (signText negative ++ ds)).head?, isSpace c = true := by
    obtain ⟨c0, t0, rfl⟩ := List.exists_cons_of_ne_nil hsep
    intro c hc
    simp only [List.cons_append, List.head?_cons, Option.mem_def, Option.some.injEq] at hc
    subst hc
    exact hsep2 _ (by simp)
  have h1 := extractString_word kw (sep ++ (signText negative ++ ds)) [] k1 k2 hr
  have hform : headerLine kw sep negative ds = kw ++ (sep ++ (signText negative ++ ds)) := by
    simp [headerLine, List.append_assoc]
  rw [hform, h1]
  have hne : (sep ++ (signText negative ++ ds)).isEmpty = false := by
    cases sep <;> simp_all
  simp only [hne]
  exact ⟨trivial, extractInt_literal sep negative ds 0 hsep2 hds hds2⟩

/-- `Read` on a file whose first two lines are well-formed header lines with different
keywords: everything up to the third `getline` is determined. -/
theorem Read_header (getFileExtension getPath : List Char → List Char)
    (fs : List Char → Option (List Char)) (filename : List Char)
    (kw1 kw2 sep1 sep2 ds1 ds2 : List Char) (n1 n2 : Bool) (rest : List Char)
    (hext : getFileExtension filename = "fbmask".toList)
    (hkw : (kw1 = kwForeground ∧ kw2 = kwBackground) ∨ (kw1 = kwBackground ∧ kw2 = kwForeground))
    (hsep1 : sep1 ≠ []) (hsep1s : ∀ c ∈ sep1, isSpace c = true) (hsep1n : ∀ c ∈ sep1, c.toNat ≠ 10)
    (hsep2 : sep2 ≠ []) (hsep2s : ∀ c ∈ sep2, isSpace c = true) (hsep2n : ∀ c ∈ sep2, c.toNat ≠ 10)
    (hds1 : ds1 ≠ []) (hds1d : ∀ c ∈ ds1, isDigit c = true)
    (hds2 : ds2 ≠ []) (hds2d : ∀ c ∈ ds2, isDigit c = true)
    (hrest : rest = [] ∨ ∃ t, rest = newline :: t)
    (hfs : fs filename
      = some (headerLine kw1 sep1 n1 ds1 ++ newline :: (headerLine kw2 sep2 n2 ds2 ++ rest))) :
    Read getFileExtension getPath fs filename
      = readTail getPath filename
          (if kw1 = kwForeground then clampInt (signedValue n1 ds1)
            else clampInt (signedValue n2 ds2))
          (if kw1 = kwForeground then clampInt (signedValue n2 ds2)
            else clampInt (signedValue n1 ds1))
          (afterHeader rest) := by
  have hk1 : kw1 = kwForeground ∨ kw1 = kwBackground := by
    rcases hkw with h | h
    · exact Or.inl h.1
    · exact Or.inr h.1
  have hk2 : kw2 = kwForeground ∨ kw2 = kwBackground := by
    rcases hkw with h | h
    · exact Or.inr h.2
    · exact Or.inl h.2
  have hl1 := headerLine_no_newline kw1 sep1 n1 ds1 (kw_facts kw1 hk1).2.2 hsep1n hds1d
  have hl2 := headerLine_no_newline kw2 sep2 n2 ds2 (kw_facts kw2 hk2).2.2 hsep2n hds2d
  have hg1 := getline_line (headerLine kw1 sep1 n1 ds1) (headerLine kw2 sep2 n2 ds2 ++ rest) [] hl1
  have hne2 : (headerLine kw2 sep2 n2 ds2).isEmpty = false := by
    have := (kw_facts kw2 hk2).1
    cases hk : kw2 with
    | nil => exact absurd hk this
    | cons a b => simp [headerLine]
  have hg2 : (Stream.mk (headerLine kw2 sep2 n2 ds2 ++ rest) false false).getline
      (headerLine kw1 sep1 n1 ds1) = (afterHeader rest, headerLine kw2 sep2 n2 ds2) := by
    rcases hrest with rfl | ⟨t, rfl⟩
    · rw [List.append_nil, getline_last _ _ hl2, hne2]; rfl
    · rw [getline_line _ _ _ hl2]; rfl
  obtain ⟨p1, p2, p3⟩ := parse_headerLine Stream.empty rfl kw1 sep1 n1 ds1 hk1 hsep1 hsep1s
    hds1 hds1d
  obtain ⟨q1, q2, q3⟩ := parse_headerLine _ p3 kw2 sep2 n2 ds2 hk2 hsep2 hsep2s hds2 hds2d
  unfold Read
  simp only [hext, ne_eq, not_true_eq_false, if_false, hfs, Stream.ofFile, hg1, hg2, p1, p2,
    q1, q2]
  have hfb : ¬ kwForeground = kwBackground := kw_ne
  have hbf : ¬ kwBackground = kwForeground := fun h => kw_ne h.symm
  rcases hkw with ⟨rfl, rfl⟩ | ⟨rfl, rfl⟩
  · simp [hfb, hbf, readTail]
  · simp [hfb, hbf, readTail]

/-! ## `ForegroundBackgroundSegmentMask::Read` -/

/-- A file name whose extension is not `fbmask` is refused before anything else happens. -/
theorem Read_bad_extension (getFileExtension getPath : List Char → List Char)
    (fs : List Char → Option (List Char)) (filename : List Char)
    (hext : getFileExtension filename ≠ "fbmask".toList) :
    Read getFileExtension getPath fs filename =
      ⟨[], some ("Cannot read files with extension other than .fbmask! Specified file had extension ."
        ++ String.mk (getFileExtension filename)
        ++ " You might want ReadFromImage instead.")⟩ := by
  unfold Read
  exact if_pos hext

/-- `Read` refuses a file whose first keyword is neither `foreground` nor `background`. -/
theorem Read_first_keyword_invalid (getFileExtension getPath : List Char → List Char)
    (fs : List Char → Option (List Char)) (filename content : List Char)
    (hext : getFileExtension filename = "fbmask".toList) (hfs : fs filename = some content)
    (h1 : firstKeyword content ≠ kwForeground ∧ firstKeyword content ≠ kwBackground) :
    Read getFileExtension getPath fs filename =
      ⟨[.openFile filename], some "Invalid .fbmask file!"⟩ := by
  unfold Read
  simp only [hext, ne_eq, not_true_eq_false, if_false, hfs]
  exact if_pos h1

/-- `Read` refuses a file whose two keywords are equal. -/
theorem Read_keyword_twice (getFileExtension getPath : List Char → List Char)
    (fs : List Char → Option (List Char)) (filename content : List Char)
    (hext : getFileExtension filename = "fbmask".toList) (hfs : fs filename = some content)
    (h1 : ¬ (firstKeyword content ≠ kwForeground ∧ firstKeyword content ≠ kwBackground))
    (h2 : firstKeyword content = secondKeyword content) :
    Read getFileExtension getPath fs filename =
      ⟨[.openFile filename],
        some "Invalid .fbmask file! Foreground or background value listed twice!"⟩ := by
  unfold Read
  simp only [hext, ne_eq, not_true_eq_false, if_false, hfs]
  exact (if_neg h1).trans (if_pos h2)

/-- `Read` refuses a file whose second keyword is neither `foreground` nor `background`. -/
theorem Read_second_keyword_invalid (getFileExtension getPath : List Char → List Char)
    (fs : List Char → Option (List Char)) (filename content : List Char)
    (hext : getFileExtension filename = "fbmask".toList) (hfs : fs filename = some content)
    (h1 : ¬ (firstKeyword content ≠ kwForeground ∧ firstKeyword content ≠ kwBackground))
    (h2 : ¬ firstKeyword content = secondKeyword content)
    (h3 : secondKeyword content ≠ kwForeground ∧ secondKeyword content ≠ kwBackground) :
    Read getFileExtension getPath fs filename =
      ⟨[.openFile filename], some "Invalid .fbmask file!"⟩ := by
  unfold Read
  simp only [hext, ne_eq, not_true_eq_false, if_false, hfs]
  exact (if_neg h1).trans ((if_neg h2).trans (if_pos h3))

/-- C7: for a file with extension fbmask that can be opened and whose first three lines are
`foreground F`, `background B` and a non-empty image name `N`, with `F` and `B` decimal
integers in `int` range, `Read` opens the file, prints the two values and calls
`ReadFromImage` exactly once, with path `GetPath(filename)` followed by `N`, foreground
value `F` and background value `B`; it throws nothing. -/
theorem Read_calls_ReadFromImage (getFileExtension getPath : List Char → List Char)
    (fs : List Char → Option (List Char)) (filename : List Char)
    (nF nB : Bool) (dF dB N rest : List Char)
    (hext : getFileExtension filename = "fbmask".toList)
    (hdF : dF ≠ []) (hdFd : ∀ c ∈ dF, isDigit c = true)
    (hdB : dB ≠ []) (hdBd : ∀ c ∈ dB, isDigit c = true)
    (hF : Stream.intMin ≤ signedValue nF dF ∧ signedValue nF dF ≤ Stream.intMax)
    (hB : Stream.intMin ≤ signedValue nB dB ∧ signedValue nB dB ≤ Stream.intMax)
    (hN : N ≠ []) (hNn : ∀ c ∈ N, c.toNat ≠ 10)
    (hrest : rest = [] ∨ ∃ t, rest = newline :: t)
    (hfs : fs filename = some (headerLine kwForeground [space] nF dF ++ newline ::
      (headerLine kwBackground [space] nB dB ++ newline :: (N ++ rest)))) :
    Read getFileExtension getPath fs filename =
      ⟨[.openFile filename, .print filename (signedValue nF dF) (signedValue nB dB),
        .readFromImage (getPath filename ++ N) (signedValue nF dF) (signedValue nB dB)],
        none⟩ := by
  have hsp : ∀ c ∈ [space], isSpace c = true := by
    intro c hc; simp only [List.mem_singleton] at hc; subst hc; decide
  have hspn : ∀ c ∈ [space], c.toNat ≠ 10 := by
    intro c hc; simp only [List.mem_singleton] at hc; subst hc; decide
  have h := Read_header getFileExtension getPath fs filename kwForeground kwBackground
    [space] [space] dF dB nF nB (newline :: (N ++ rest)) hext (Or.inl ⟨rfl, rfl⟩)
    (by simp) hsp hspn (by simp) hsp hspn hdF hdFd hdB hdBd (Or.inr ⟨_, rfl⟩) hfs
  have hcF : clampInt (signedValue nF dF) = signedValue nF dF := by
    unfold clampInt; rw [if_neg (by omega), if_neg (by omega)]
  have hcB : clampInt (signedValue nB dB) = signedValue nB dB := by
    unfold clampInt; rw [if_neg (by omega), if_neg (by omega)]
  have hg3 : ((afterHeader (newline :: (N ++ rest))).getline []).2 = N := by
    rcases hrest with rfl | ⟨t, rfl⟩
    · simp only [afterHeader, List.append_nil]; rw [getline_last _ _ hNn]
    · simp only [afterHeader]; rw [getline_line _ _ _ hNn]
  rw [h, if_pos rfl, if_pos rfl, hcF, hcB]
  unfold readTail
  rw [hg3, if_neg (by simpa using hN)]

/-- C7, witness: the file of the format comment, `foreground 0`, `background 255`,
`Mask.png`, read as `dir/a.fbmask`. -/
theorem Read_calls_ReadFromImage_witness :
    Read exampleGetFileExtension exampleGetPath
        (fun _ => some "foreground 0\nbackground 255\nMask.png\n".toList) "dir/a.fbmask".toList =
      ⟨[.openFile "dir/a.fbmask".toList, .print "dir/a.fbmask".toList 0 255,
        .readFromImage "dir/Mask.png".toList 0 255], none⟩ :=
  Read_calls_ReadFromImage exampleGetFileExtension exampleGetPath
    (fun _ => some "foreground 0\nbackground 255\nMask.png\n".toList) "dir/a.fbmask".toList
    false false "0".toList "255".toList "Mask.png".toList [newline]
    (by decide) (by decide) (by decide) (by decide) (by decide) (by decide) (by decide)
    (by decide) (by decide) (Or.inr ⟨[], rfl⟩) (by decide)

/-- C8: when the first two lines of a .fbmask file are each a keyword (`foreground` or
`background`, one of each) followed by white space and an integer, exchanging the two lines
does not change what `Read` does: the same events, with the same foreground value,
background value and image path handed to `ReadFromImage`, and the same exception if any. -/
theorem Read_header_order_irrelevant (getFileExtension getPath : List Char → List Char)
    (fsA fsB : List Char → Option (List Char)) (filename : List Char)
    (kw1 kw2 sep1 sep2 ds1 ds2 : List Char) (n1 n2 : Bool) (rest : List Char)
    (hkw : (kw1 = kwForeground ∧ kw2 = kwBackground) ∨ (kw1 = kwBackground ∧ kw2 = kwForeground))
    (hsep1 : sep1 ≠ []) (hsep1s : ∀ c ∈ sep1, isSpace c = true) (hsep1n : ∀ c ∈ sep1, c.toNat ≠ 10)
    (hsep2 : sep2 ≠ []) (hsep2s : ∀ c ∈ sep2, isSpace c = true) (hsep2n : ∀ c ∈ sep2, c.toNat ≠ 10)
    (hds1 : ds1 ≠ []) (hds1d : ∀ c ∈ ds1, isDigit c = true)
    (hds2 : ds2 ≠ []) (hds2d : ∀ c ∈ ds2, isDigit c = true)
    (hrest : rest = [] ∨ ∃ t, rest = newline :: t)
    (hA : fsA filename
      = some (headerLine kw1 sep1 n1 ds1 ++ newline :: (headerLine kw2 sep2 n2 ds2 ++ rest)))
    (hB : fsB filename
      = some (headerLine kw2 sep2 n2 ds2 ++ newline :: (headerLine kw1 sep1 n1 ds1 ++ rest))) :
    Read getFileExtension getPath fsA filename = Read getFileExtension getPath fsB filename := by
  have hkw2 : (kw2 = kwForeground ∧ kw1 = kwBackground) ∨
      (kw2 = kwBackground ∧ kw1 = kwForeground) := by
    rcases hkw with h | h
    · exact Or.inr ⟨h.2, h.1⟩
    · exact Or.inl ⟨h.2, h.1⟩
  by_cases hext : getFileExtension filename = "fbmask".toList
  · rw [Read_header getFileExtension getPath fsA filename kw1 kw2 sep1 sep2 ds1 ds2 n1 n2 rest
        hext hkw hsep1 hsep1s hsep1n hsep2 hsep2s hsep2n hds1 hds1d hds2 hds2d hrest hA,
      Read_header getFileExtension getPath fsB filename kw2 kw1 sep2 sep1 ds2 ds1 n2 n1 rest
        hext hkw2 hsep2 hsep2s hsep2n hsep1 hsep1s hsep1n hds2 hds2d hds1 hds1d hrest hB]
    have hfb : ¬ kwForeground = kwBackground := kw_ne
    have hbf : ¬ kwBackground = kwForeground := fun h => kw_ne h.symm
    rcases hkw with ⟨rfl, rfl⟩ | ⟨rfl, rfl⟩
    · simp [hfb, hbf]
    · simp [hfb, hbf]
  · rw [Read_bad_extension getFileExtension getPath fsA filename hext,
      Read_bad_extension getFileExtension getPath fsB filename hext]

/-- C8, witness: the two files of the format comment, `foreground 0` / `background 255` and
`background 255` / `foreground 0`, each followed by `Mask.png`. -/
theorem Read_header_order_irrelevant_witness :
    Read exampleGetFileExtension exampleGetPath
        (fun _ => some "foreground 0\nbackground 255\nMask.png".toList) "a.fbmask".toList =
      Read exampleGetFileExtension exampleGetPath
        (fun _ => some "background 255\nforeground 0\nMask.png".toList) "a.fbmask".toList :=
  Read_header_order_irrelevant exampleGetFileExtension exampleGetPath
    (fun _ => some "foreground 0\nbackground 255\nMask.png".toList)
    (fun _ => some "background 255\nforeground 0\nMask.png".toList) "a.fbmask".toList
    kwForeground kwBackground [space] [space] "0".toList "255".toList false false
    (newline :: "Mask.png".toList) (Or.inl ⟨rfl, rfl⟩)
    (by decide) (by decide) (by decide) (by decide) (by decide) (by decide)
    (by decide) (by decide) (by decide) (by decide) (Or.inr ⟨_, rfl⟩) (by decide) (by decide)

/-- C9: `Read` throws and does not call `ReadFromImage` unless the keywords it extracts for
the first and the second line are `foreground` and `background`, one each, in either order.
The comparison is exact (case-sensitive); a keyword read twice is refused as well. -/
theorem Read_throws_unless_keywords (getFileExtension getPath : List Char → List Char)
    (fs : List Char → Option (List Char)) (filename content : List Char)
    (hfs : fs filename = some content)
    (hkw : ¬ ((firstKeyword content = kwForeground ∧ secondKeyword content = kwBackground) ∨
      (firstKeyword content = kwBackground ∧ secondKeyword content = kwForeground))) :
    (Read getFileExtension getPath fs filename).thrown ≠ none ∧
      ∀ path fg bg, Event.readFromImage path fg bg ∉
        (Read getFileExtension getPath fs filename).trace := by
  by_cases hext : getFileExtension filename = "fbmask".toList
  · by_cases h1 : firstKeyword content ≠ kwForeground ∧ firstKeyword content ≠ kwBackground
    · rw [Read_first_keyword_invalid getFileExtension getPath fs filename content hext hfs h1]
      simp
    · by_cases h2 : firstKeyword content = secondKeyword content
      · rw [Read_keyword_twice getFileExtension getPath fs filename content hext hfs h1 h2]
        simp
      · by_cases h3 : secondKeyword content ≠ kwForeground ∧
            secondKeyword content ≠ kwBackground
        · rw [Read_second_keyword_invalid getFileExtension getPath fs filename content hext
            hfs h1 h2 h3]
          simp
        · exfalso
          apply hkw
          simp only [ne_eq, not_and_or, not_not] at h1 h3
          rcases h1 with h1 | h1 <;> rcases h3 with h3 | h3
          · exact absurd (h1.trans h3.symm) h2
          · exact Or.inl ⟨h1, h3⟩
          · exact Or.inr ⟨h1, h3⟩
          · exact absurd (h1.trans h3.symm) h2
  · rw [Read_bad_extension getFileExtension getPath fs filename hext]
    simp

/-- C9, witness: a first line spelled `Foreground 0` is refused. -/
theorem Read_throws_unless_keywords_witness :
    (Read exampleGetFileExtension exampleGetPath
        (fun _ => some "Foreground 0\nbackground 255\nMask.png".toList)
        "a.fbmask".toList).thrown ≠ none ∧
      ∀ path fg bg, Event.readFromImage path fg bg ∉
        (Read exampleGetFileExtension exampleGetPath
          (fun _ => some "Foreground 0\nbackground 255\nMask.png".toList)
          "a.fbmask".toList).trace :=
  Read_throws_unless_keywords exampleGetFileExtension exampleGetPath
    (fun _ => some "Foreground 0\nbackground 255\nMask.png".toList) "a.fbmask".toList
    "Foreground 0\nbackground 255\nMask.png".toList rfl (by decide)

/-- C10: when the extension of the file name is not exactly `fbmask`, `Read` throws a
`std::runtime_error` naming the extension, without having opened the file and without
calling `ReadFromImage`: it has performed no event at all. -/
theorem Read_rejects_extension (getFileExtension getPath : List Char → List Char)
    (fs : List Char → Option (List Char)) (filename : List Char)
    (hext : getFileExtension filename ≠ "fbmask".toList) :
    (Read getFileExtension getPath fs filename).trace = [] ∧
      (Read getFileExtension getPath fs filename).thrown =
        some ("Cannot read files with extension other than .fbmask! Specified file had extension ."
          ++ String.mk (getFileExtension filename)
          ++ " You might want ReadFromImage instead.") := by
  rw [Read_bad_extension getFileExtension getPath fs filename hext]
  exact ⟨rfl, rfl⟩

/-- C10, witness: `mask.png` is refused although the file exists and is well-formed. -/
theorem Read_rejects_extension_witness :
    (Read exampleGetFileExtension exampleGetPath
        (fun _ => some "foreground 0\nbackground 255\nMask.png".toList) "mask.png".toList).trace
        = [] ∧
      (Read exampleGetFileExtension exampleGetPath
        (fun _ => some "foreground 0\nbackground 255\nMask.png".toList) "mask.png".toList).thrown
        = some ("Cannot read files with extension other than .fbmask! Specified file had extension ."
          ++ String.mk (exampleGetFileExtension "mask.png".toList)
          ++ " You might want ReadFromImage instead.") :=
  Read_rejects_extension exampleGetFileExtension exampleGetPath
    (fun _ => some "foreground 0\nbackground 255\nMask.png".toList) "mask.png".toList
    (by decide)


/-! ## The example program -/

/-- The run of `main` on the example files, whatever the engine answers: the events up to
and including the call of `PerformSegmentation`. -/
theorem main_example_prefix (engine : EngineInput → Except EngineError SegmentMask)
    (applyToImage : SegmentMask → VectorImage → List Nat → VectorImage) :
    ∃ rest, (main exampleFiles engine applyToImage exampleArgv).trace =
      [.coutArguments "image.png".toList "foreground.png".toList "background.png".toList
          "output.png".toList,
        .readImage "image.png".toList, .coutComponents 1, .coutStarting,
        .setImage exampleImage, .setNumberOfHistogramBins 20, .setLambda (1 / 100),
        .setSources [], .setSinks [], .performSegmentation] ++ rest ∧
      ∀ e ∈ rest, (∃ f m a b, e = .writeMask f m a b) ∨ (∃ c, e = .applyToImage c) ∨
        (∃ f i, e = .writeImage f i) := by
  have hfile : exampleFiles "image.png".toList = some exampleImage := by decide
  have hlen : exampleArgv.length = 5 := by decide
  unfold main
  rw [if_neg (by simp [hlen])]
  have h1 : exampleArgv.getD 1 [] = "image.png".toList := by decide
  have h2 : exampleArgv.getD 2 [] = "foreground.png".toList := by decide
  have h3 : exampleArgv.getD 3 [] = "background.png".toList := by decide
  have h4 : exampleArgv.getD 4 [] = "output.png".toList := by decide
  simp only [h1, h2, h3, h4, hfile]
  cases engine ⟨exampleImage, 20, 1 / 100, [], []⟩ with
  | error e => exact ⟨[], by simp [exampleImage], by simp⟩
  | ok mask =>
    refine ⟨[.writeMask "resultingMask.png".toList mask 0 255,
      .applyToImage (List.replicate 3 0),
      .writeImage "output.png".toList (applyToImage mask exampleImage (List.replicate 3 0))],
      by simp [exampleImage], ?_⟩
    intro e he
    simp only [List.mem_cons, List.mem_singleton, List.not_mem_nil, or_false] at he
    rcases he with rfl | rfl | rfl
    · exact Or.inl ⟨_, _, _, _, rfl⟩
    · exact Or.inr (Or.inl ⟨_, rfl⟩)
    · exact Or.inr (Or.inr ⟨_, _, rfl⟩)

/-- C1 (the code departs from it): in the example run the foreground mask has the white pixel
(0, 0) and the background mask the white pixel (1, 0), yet `main` hands the empty list to
`SetSources` and to `SetSinks`, whatever the engine does; the white pixels are handed to
neither. -/
theorem main_hands_empty_seed_lists (engine : EngineInput → Except EngineError SegmentMask)
    (applyToImage : SegmentMask → VectorImage → List Nat → VectorImage) :
    whitePixels exampleForegroundMask = [⟨0, 0⟩] ∧
    whitePixels exampleBackgroundMask = [⟨1, 0⟩] ∧
    MainEvent.setSources [] ∈ (main exampleFiles engine applyToImage exampleArgv).trace ∧
    MainEvent.setSinks [] ∈ (main exampleFiles engine applyToImage exampleArgv).trace ∧
    MainEvent.setSources (whitePixels exampleForegroundMask) ∉
      (main exampleFiles engine applyToImage exampleArgv).trace ∧
    MainEvent.setSinks (whitePixels exampleBackgroundMask) ∉
      (main exampleFiles engine applyToImage exampleArgv).trace := by
  have hw1 : whitePixels exampleForegroundMask = [⟨0, 0⟩] := by decide
  have hw2 : whitePixels exampleBackgroundMask = [⟨1, 0⟩] := by decide
  obtain ⟨rest, htrace, hrest⟩ := main_example_prefix engine applyToImage
  rw [htrace, hw1, hw2]
  refine ⟨rfl, rfl, by simp, by simp, ?_, ?_⟩
  · intro h
    simp only [List.mem_append, List.mem_cons, List.mem_singleton, List.not_mem_nil, or_false,
      reduceCtorEq, false_or, MainEvent.setSources.injEq] at h
    rcases hrest _ h with ⟨_, _, _, _, h⟩ | ⟨_, h⟩ | ⟨_, _, h⟩ <;> cases h
  · intro h
    simp only [List.mem_append, List.mem_cons, List.mem_singleton, List.not_mem_nil, or_false,
      reduceCtorEq, false_or, MainEvent.setSinks.injEq] at h
    rcases hrest _ h with ⟨_, _, _, _, h⟩ | ⟨_, h⟩ | ⟨_, _, h⟩ <;> cases h

/-- Lines 91-103 of `main`: once the engine has returned a label map, `main` writes the
segment mask to the fixed name `resultingMask.png`, applies the mask with a background colour
of three components to a copy of the input image, writes that copy to the file named by the
fourth argument and returns 0. -/
theorem main_with_label_map (readImage : List Char → Option VectorImage)
    (engine : EngineInput → Except EngineError SegmentMask)
    (applyToImage : SegmentMask → VectorImage → List Nat → VectorImage)
    (argv : List (List Char)) (image : VectorImage) (mask : SegmentMask)
    (hargc : argv.length = 5) (hread : readImage (argv.getD 1 []) = some image)
    (hengine : engine ⟨image, 20, 1 / 100, [], []⟩ = .ok mask) :
    main readImage engine applyToImage argv =
      ⟨[.coutArguments (argv.getD 1 []) (argv.getD 2 []) (argv.getD 3 []) (argv.getD 4 []),
        .readImage (argv.getD 1 []), .coutComponents image.numberOfComponentsPerPixel,
        .coutStarting, .setImage image, .setNumberOfHistogramBins 20, .setLambda (1 / 100),
        .setSources [], .setSinks [], .performSegmentation,
        .writeMask "resultingMask.png".toList mask 0 255,
        .applyToImage [0, 0, 0],
        .writeImage (argv.getD 4 []) (applyToImage mask image [0, 0, 0])],
        .returned 0⟩ := by
  unfold main
  rw [if_neg (by simp [hargc])]
  simp only [hread, hengine]
  simp

/-- C2: a segmentation request whose foreground seed list or background seed list is empty
fails with `InvalidSeedSet` before any stage of the graph work is performed, for every
image, configuration, cost function and iteration budget; it returns no label map. -/
theorem PerformSegmentation_empty_seed_set (appearance : EngineInput → CostFunction)
    (fuel : Nat) (input : EngineInput) (h : input.sources = [] ∨ input.sinks = []) :
    PerformSegmentation appearance fuel input = ⟨[], .failed .InvalidSeedSet⟩ := by
  unfold PerformSegmentation validate
  rw [if_pos h]

/-- C2, witness: the boundary scenario of the spec, a single-pixel image with that pixel as
the only foreground seed and no background seed. -/
theorem PerformSegmentation_empty_seed_set_witness :
    PerformSegmentation (fun _ => ⟨fun _ _ => 0, fun _ _ => 0⟩) 10
        ⟨⟨1, 1, 1, [[10]]⟩, 20, 1 / 100, [⟨0, 0⟩], []⟩ = ⟨[], .failed .InvalidSeedSet⟩ :=
  PerformSegmentation_empty_seed_set (fun _ => ⟨fun _ _ => 0, fun _ _ => 0⟩) 10
    ⟨⟨1, 1, 1, [[10]]⟩, 20, 1 / 100, [⟨0, 0⟩], []⟩ (Or.inr rfl)

/-! ## The search tree -/

theorem inTree_nil {N : Nat} (root v : Fin N) : inTree root [] v = decide (v = root) := by
  simp [inTree]

theorem inTree_cons {N : Nat} (root : Fin N) (e : Fin N × Fin N) (rest : SearchTree N)
    (v : Fin N) : inTree root (e :: rest) v = (decide (e.1 = v) || inTree root rest v) := by
  simp only [inTree, List.any_cons]
  cases decide (v = root) <;> cases decide (e.1 = v) <;> simp

theorem inTree_root {N : Nat} (root : Fin N) (tree : SearchTree N) :
    inTree root tree root = true := by
  simp [inTree]

theorem mem_growthEdges {N : Nat} (e : Fin N × Fin N) : e ∈ growthEdges N := by
  simp only [growthEdges, List.mem_flatMap, List.mem_map, List.mem_finRange, true_and]
  exact ⟨e.1, e.2, rfl⟩

theorem nextEdge_some {N : Nat} (r : Residual N) (root : Fin N) (tree : SearchTree N)
    (e : Fin N × Fin N) (h : nextEdge r root tree = some e) :
    inTree root tree e.1 = true ∧ inTree root tree e.2 = false ∧ 0 < r e.1 e.2 := by
  have := List.find?_some h
  simpa [and_assoc] using this

theorem nextEdge_none {N : Nat} (r : Residual N) (root : Fin N) (tree : SearchTree N)
    (h : nextEdge r root tree = none) (u v : Fin N) (hu : inTree root tree u = true)
    (huv : 0 < r u v) : inTree root tree v = true := by
  have := List.find?_eq_none.mp h (u, v) (mem_growthEdges _)
  simp only [hu, Bool.true_and, Bool.and_eq_true, Bool.not_eq_true', decide_eq_true_eq,
    not_and] at this
  by_contra hv
  exact this (by simpa using hv) huv

theorem TreeOK_nodup {N : Nat} (r : Residual N) (root : Fin N) (tree : SearchTree N)
    (h : TreeOK r root tree) : (root :: tree.map Prod.fst).Nodup := by
  induction tree with
  | nil => simp
  | cons e rest ih =>
    obtain ⟨h1, _, h3, _⟩ := h
    have ih := ih h1
    simp only [inTree, Bool.or_eq_false_iff, decide_eq_false_iff_not, List.any_eq_false,
      decide_eq_true_eq] at h3
    simp only [List.map_cons, List.nodup_cons, List.mem_cons, List.mem_map, not_or,
      not_exists, not_and] at ih ⊢
    refine ⟨⟨fun h => h3.1 h.symm, ih.1⟩, ?_, ih.2⟩
    intro x hx hxe
    exact h3.2 x hx hxe

theorem TreeOK_length {N : Nat} (r : Residual N) (root : Fin N) (tree : SearchTree N)
    (h : TreeOK r root tree) : tree.length + 1 ≤ N := by
  have := (TreeOK_nodup r root tree h).length_le_card
  simpa using this

theorem grow_TreeOK {N : Nat} (r : Residual N) (root : Fin N) (k : Nat) (tree : SearchTree N)
    (h : TreeOK r root tree) : TreeOK r root (grow r root k tree) := by
  induction k generalizing tree with
  | zero => exact h
  | succ k ih =>
    unfold grow
    cases hn : nextEdge r root tree with
    | none => exact h
    | some e =>
      obtain ⟨h1, h2, h3⟩ := nextEdge_some r root tree e hn
      exact ih _ ⟨h, h1, h2, h3⟩

theorem grow_closed {N : Nat} (r : Residual N) (root : Fin N) (k : Nat) (tree : SearchTree N)
    (h : TreeOK r root tree) (hk : N ≤ k + tree.length) :
    nextEdge r root (grow r root k tree) = none := by
  induction k generalizing tree with
  | zero =>
    have := TreeOK_length r root tree h
    omega
  | succ k ih =>
    unfold grow
    cases hn : nextEdge r root tree with
    | none => exact hn
    | some e =>
      obtain ⟨h1, h2, h3⟩ := nextEdge_some r root tree e hn
      exact ih _ ⟨h, h1, h2, h3⟩ (by simp only [List.length_cons]; omega)

/-! ## The path to a node of the tree -/

theorem pathTo_mem {N : Nat} (r : Residual N) (root : Fin N) (tree : SearchTree N)
    (h : TreeOK r root tree) (v : Fin N) (hv : inTree root tree v = true) :
    ∀ x ∈ pathTo tree v, inTree root tree x = true := by
  induction tree generalizing v with
  | nil =>
    intro x hx
    simp only [pathTo, List.mem_singleton] at hx
    rw [hx]; exact hv
  | cons e rest ih =>
    obtain ⟨h1, h2, h3, _⟩ := h
    intro x hx
    rw [inTree_cons]
    unfold pathTo at hx
    by_cases hve : v = e.1
    · rw [if_pos hve] at hx
      simp only [List.mem_append, List.mem_singleton] at hx
      rcases hx with hx | hx
      · simp [ih h1 e.2 h2 x hx]
      · simp [hx, hve]
    · rw [if_neg hve] at hx
      have hv2 : inTree root rest v = true := by
        rw [inTree_cons] at hv
        have hne : ¬ e.1 = v := fun h => hve h.symm
        simpa [hne] using hv
      simp [ih h1 v hv2 x hx]

theorem pathTo_nodup {N : Nat} (r : Residual N) (root : Fin N) (tree : SearchTree N)
    (h : TreeOK r root tree) (v : Fin N) (hv : inTree root tree v = true) :
    (pathTo tree v).Nodup := by
  induction tree generalizing v with
  | nil => simp [pathTo]
  | cons e rest ih =>
    obtain ⟨h1, h2, h3, _⟩ := h
    unfold pathTo
    by_cases hve : v = e.1
    · rw [if_pos hve]
      rw [List.nodup_append]
      refine ⟨ih h1 e.2 h2, by simp, ?_⟩
      intro x hx1 hx2
      simp only [List.mem_singleton] at hx2
      have := pathTo_mem r root rest h1 e.2 h2 x hx1
      rw [hx2, hve, h3] at this
      exact Bool.false_ne_true this
    · rw [if_neg hve]
      have hv2 : inTree root rest v = true := by
        rw [inTree_cons] at hv
        have hne : ¬ e.1 = v := fun h => hve h.symm
        simpa [hne] using hv
      exact ih h1 v hv2


theorem edgesPositive_concat {N : Nat} (r : Residual N) (l : List (Fin N)) (p w : Fin N)
    (hl : EdgesPositive r l) (hlast : l.getLast? = some p) (hpw : 0 < r p w) :
    EdgesPositive r (l ++ [w]) := by
  induction l with
  | nil => simp at hlast
  | cons a t ih =>
    cases t with
    | nil =>
      simp only [List.getLast?_singleton, Option.some.injEq] at hlast
      subst hlast
      exact ⟨hpw, trivial⟩
    | cons b rest =>
      obtain ⟨h1, h2⟩ := hl
      rw [List.getLast?_cons_cons] at hlast
      exact ⟨h1, ih h2 hlast⟩

theorem pathTo_getLast {N : Nat} (tree : SearchTree N) (v : Fin N) :
    (pathTo tree v).getLast? = some v := by
  induction tree generalizing v with
  | nil => simp [pathTo]
  | cons e rest ih =>
    unfold pathTo
    by_cases hve : v = e.1
    · rw [if_pos hve]; simp
    · rw [if_neg hve]; exact ih v

theorem pathTo_head {N : Nat} (r : Residual N) (root : Fin N) (tree : SearchTree N)
    (h : TreeOK r root tree) (v : Fin N) (hv : inTree root tree v = true) :
    (pathTo tree v).head? = some root := by
  induction tree generalizing v with
  | nil =>
    rw [inTree_nil] at hv
    simp only [decide_eq_true_eq] at hv
    simp [pathTo, hv]
  | cons e rest ih =>
    obtain ⟨h1, h2, _, _⟩ := h
    unfold pathTo
    by_cases hve : v = e.1
    · rw [if_pos hve]
      have := ih h1 e.2 h2
      cases hp : pathTo rest e.2 with
      | nil => rw [hp] at this; simp at this
      | cons a t => rw [hp] at this; simpa using this
    · rw [if_neg hve]
      have hv2 : inTree root rest v = true := by
        rw [inTree_cons] at hv
        have hne : ¬ e.1 = v := fun h => hve h.symm
        simpa [hne] using hv
      exact ih h1 v hv2

theorem pathTo_positive {N : Nat} (r : Residual N) (root : Fin N) (tree : SearchTree N)
    (h : TreeOK r root tree) (v : Fin N) (hv : inTree root tree v = true) :
    EdgesPositive r (pathTo tree v) := by
  induction tree generalizing v with
  | nil => simp [pathTo, EdgesPositive]
  | cons e rest ih =>
    obtain ⟨h1, h2, _, h4⟩ := h
    unfold pathTo
    by_cases hve : v = e.1
    · rw [if_pos hve, hve]
      exact edgesPositive_concat r _ e.2 e.1 (ih h1 e.2 h2) (pathTo_getLast rest e.2) h4
    · rw [if_neg hve]
      have hv2 : inTree root rest v = true := by
        rw [inTree_cons] at hv
        have hne : ¬ e.1 = v := fun h => hve h.symm
        simpa [hne] using hv
      exact ih h1 v hv2

/-- A path of the tree from the root to another node: it has a first edge. -/
theorem pathTo_shape {N : Nat} (r : Residual N) (root : Fin N) (tree : SearchTree N)
    (h : TreeOK r root tree) (v : Fin N) (hv : inTree root tree v = true) (hne : v ≠ root) :
    ∃ w rest, pathTo tree v = root :: w :: rest ∧
      (root :: w :: rest).getLast (List.cons_ne_nil _ _) = v := by
  have hh := pathTo_head r root tree h v hv
  have hl := pathTo_getLast tree v
  cases hp : pathTo tree v with
  | nil => rw [hp] at hh; simp at hh
  | cons a t =>
    rw [hp] at hh hl
    simp only [List.head?_cons, Option.some.injEq] at hh
    subst hh
    cases t with
    | nil =>
      simp only [List.getLast?_singleton, Option.some.injEq] at hl
      exact absurd hl.symm hne
    | cons w rest =>
      refine ⟨w, rest, rfl, ?_⟩
      rw [List.getLast?_eq_getLast _ (List.cons_ne_nil _ _)] at hl
      exact Option.some.inj hl

/-! ## Pushing flow along a path -/

theorem bottleneck_pos {N : Nat} (r : Residual N) (rest : List (Fin N)) (u v : Fin N)
    (h : EdgesPositive r (u :: v :: rest)) : 0 < bottleneck r (u :: v :: rest) := by
  induction rest generalizing u v with
  | nil => exact h.1
  | cons w rest ih => exact lt_min h.1 (ih v w h.2)

theorem bottleneck_admissible {N : Nat} (r : Residual N) (rest : List (Fin N)) (u v : Fin N)
    (b : ℚ) (h : b ≤ bottleneck r (u :: v :: rest)) : Admissible r b (u :: v :: rest) := by
  induction rest generalizing u v with
  | nil => exact ⟨h, trivial⟩
  | cons w rest ih =>
    have h' : b ≤ min (r u v) (bottleneck r (v :: w :: rest)) := h
    exact ⟨le_trans h' (min_le_left _ _), ih v w (le_trans h' (min_le_right _ _))⟩

theorem bottleneck_onGrid {N : Nat} (D : ℚ) (r : Residual N) (hr : OnGrid D r)
    (path : List (Fin N)) : ∃ k : ℤ, bottleneck r path * D = k := by
  induction path with
  | nil => exact ⟨0, by simp [bottleneck]⟩
  | cons u t ih =>
    cases t with
    | nil => exact ⟨0, by simp [bottleneck]⟩
    | cons v rest =>
      cases rest with
      | nil => exact hr u v
      | cons w rest =>
        show ∃ k : ℤ, min (r u v) (bottleneck r (v :: w :: rest)) * D = k
        rcases min_choice (r u v) (bottleneck r (v :: w :: rest)) with h | h
        · rw [h]; exact hr u v
        · rw [h]; exact ih

theorem admissible_mono {N : Nat} (r r2 : Residual N) (b : ℚ) (l : List (Fin N))
    (h : ∀ x ∈ l, ∀ y, r x y ≤ r2 x y) (ha : Admissible r b l) : Admissible r2 b l := by
  induction l with
  | nil => trivial
  | cons u t ih =>
    cases t with
    | nil => trivial
    | cons v rest =>
      exact ⟨le_trans ha.1 (h u (by simp) v),
        ih (fun x hx y => h x (List.mem_cons_of_mem _ hx) y) ha.2⟩

theorem push_nonneg {N : Nat} (r : Residual N) (u v : Fin N) (b : ℚ)
    (hr : ∀ x y, 0 ≤ r x y) (hb : 0 ≤ b) (hbr : b ≤ r u v) :
    ∀ x y, 0 ≤ push r u v b x y := by
  intro x y
  unfold push
  split_ifs with h1 h2
  · rw [h1.1, h1.2]; linarith
  · have := hr x y; linarith
  · exact hr x y

theorem pushPath_nonneg {N : Nat} (b : ℚ) (hb : 0 ≤ b) (path : List (Fin N)) (r : Residual N)
    (hr : ∀ x y, 0 ≤ r x y) (ha : Admissible r b path) (hnd : path.Nodup) :
    ∀ x y, 0 ≤ pushPath r b path x y := by
  induction path generalizing r with
  | nil => exact hr
  | cons u t ih =>
    cases t with
    | nil => exact hr
    | cons v rest =>
      show ∀ x y, 0 ≤ pushPath (push r u v b) b (v :: rest) x y
      have hu : u ∉ v :: rest := (List.nodup_cons.mp hnd).1
      refine ih (push r u v b) (push_nonneg r u v b hr hb ha.1) ?_ (List.nodup_cons.mp hnd).2
      refine admissible_mono r _ b _ ?_ ha.2
      intro x hx y
      have hxu : x ≠ u := fun h => hu (h ▸ hx)
      unfold push
      split_ifs with h1 h2
      · exact absurd h1.1 hxu
      · linarith
      · exact le_refl _

theorem push_onGrid {N : Nat} (D : ℚ) (r : Residual N) (u v : Fin N) (b : ℚ)
    (hr : OnGrid D r) (hb : ∃ k : ℤ, b * D = k) : OnGrid D (push r u v b) := by
  intro x y
  obtain ⟨k, hk⟩ := hr x y
  obtain ⟨kb, hkb⟩ := hb
  unfold push
  split_ifs
  · exact ⟨k - kb, by push_cast; rw [sub_mul, hk, hkb]⟩
  · exact ⟨k + kb, by push_cast; rw [add_mul, hk, hkb]⟩
  · exact ⟨k, hk⟩

theorem pushPath_onGrid {N : Nat} (D : ℚ) (b : ℚ) (hb : ∃ k : ℤ, b * D = k)
    (path : List (Fin N)) (r : Residual N) (hr : OnGrid D r) :
    OnGrid D (pushPath r b path) := by
  induction path generalizing r with
  | nil => exact hr
  | cons u t ih =>
    cases t with
    | nil => exact hr
    | cons v rest => exact ih (push r u v b) (push_onGrid D r u v b hr hb)


theorem sum_single_pair {N : Nat} (u v : Fin N) (c : ℚ) :
    (∑ x : Fin N, ∑ y : Fin N, if x = u then (if y = v then c else 0) else 0) = c := by
  have h : ∀ x : Fin N, (∑ y : Fin N, if x = u then (if y = v then c else 0) else 0)
      = if x = u then c else 0 := by
    intro x
    by_cases hx : x = u
    · simp [hx]
    · simp [hx]
  simp_rw [h]
  simp

theorem push_cutSum {N : Nat} (r : Residual N) (u v : Fin N) (b : ℚ) (S : Fin N → Bool)
    (huv : u ≠ v) : cutSum (push r u v b) S = cutSum r S - b * (ind S u - ind S v) := by
  have key : ∀ x y : Fin N,
      (if S x = true ∧ S y = false then push r u v b x y else 0) =
        (if S x = true ∧ S y = false then r x y else 0)
          - (if x = u then (if y = v then (if S u = true ∧ S v = false then b else 0) else 0)
              else 0)
          + (if x = v then (if y = u then (if S v = true ∧ S u = false then b else 0) else 0)
              else 0) := by
    intro x y
    unfold push
    by_cases hxu : x = u
    · by_cases hyv : y = v
      · subst hxu; subst hyv
        have hxy : ¬ x = y := huv
        by_cases hS : S x = true ∧ S y = false
        · simp [hS, hxy]
        · simp [hS, hxy]
      · have hxv : ¬ x = v := fun h => huv (hxu.symm.trans h)
        simp [hxu, hyv, hxv, huv]
    · by_cases hxv : x = v
      · by_cases hyu : y = u
        · subst hxv; subst hyu
          by_cases hS : S x = true ∧ S y = false
          · simp [hS, hxu]
          · simp [hS, hxu]
        · have hvu : ¬ v = u := fun h => huv h.symm
          simp [hxv, hyu, hvu]
      · simp [hxu, hxv]
  unfold cutSum
  simp_rw [key, Finset.sum_add_distrib, Finset.sum_sub_distrib, sum_single_pair]
  unfold ind
  cases hu : S u <;> cases hv : S v <;> simp

theorem pushPath_cutSum {N : Nat} (b : ℚ) (S : Fin N → Bool) (rest : List (Fin N))
    (u : Fin N) (r : Residual N) (hnd : (u :: rest).Nodup) :
    cutSum (pushPath r b (u :: rest)) S =
      cutSum r S - b * (ind S u - ind S ((u :: rest).getLast (List.cons_ne_nil _ _))) := by
  induction rest generalizing u r with
  | nil => simp [pushPath]
  | cons v rest ih =>
    show cutSum (pushPath (push r u v b) b (v :: rest)) S = _
    have huv : u ≠ v := by
      intro h
      have := (List.nodup_cons.mp hnd).1
      exact this (by simp [h])
    rw [ih v (push r u v b) (List.nodup_cons.mp hnd).2, push_cutSum r u v b S huv,
      List.getLast_cons_cons]
    ring


/-! ## The solver -/

theorem cutSum_nonneg {N : Nat} (r : Residual N) (S : Fin N → Bool) (hr : ∀ x y, 0 ≤ r x y) :
    0 ≤ cutSum r S := by
  unfold cutSum
  refine Finset.sum_nonneg (fun x _ => Finset.sum_nonneg (fun y _ => ?_))
  split_ifs
  · exact hr x y
  · exact le_refl _

theorem SolverInv.initial {N : Nat} (net : Network N) (D : ℚ)
    (hcap : ∀ x y, 0 ≤ net.capacity x y) (hgrid : OnGrid D net.capacity) :
    SolverInv net D 0 net.capacity :=
  ⟨hcap, fun S _ _ => by simp, hgrid⟩

/-- The flow pushed so far never exceeds the capacity of the cut around SOURCE. -/
theorem SolverInv.val_le {N : Nat} (net : Network N) (D val : ℚ) (r : Residual N)
    (hne : net.source ≠ net.sink) (h : SolverInv net D val r) :
    val ≤ cutSum net.capacity (sourceOnly net) := by
  have h1 := h.cut (sourceOnly net) (by simp [sourceOnly])
    (by simp only [sourceOnly, decide_eq_false_iff_not]; exact fun e => hne e.symm)
  have h2 := cutSum_nonneg r (sourceOnly net) h.nonneg
  linarith

/-- One iteration of the solver that finds an augmenting path: the invariant is kept and the
flow grows by at least `1 / D`. -/
theorem SolverInv.step {N : Nat} (net : Network N) (D val : ℚ) (r : Residual N)
    (hD : 0 < D) (hne : net.source ≠ net.sink) (h : SolverInv net D val r)
    (tree : SearchTree N) (htree : TreeOK r net.source tree)
    (hsink : inTree net.source tree net.sink = true) :
    SolverInv net D (val + bottleneck r (pathTo tree net.sink))
        (pushPath r (bottleneck r (pathTo tree net.sink)) (pathTo tree net.sink)) ∧
      1 ≤ bottleneck r (pathTo tree net.sink) * D := by
  obtain ⟨w, rest, hpath, hlast⟩ :=
    pathTo_shape r net.source tree htree net.sink hsink (fun e => hne e.symm)
  have hpos := pathTo_positive r net.source tree htree net.sink hsink
  have hnd := pathTo_nodup r net.source tree htree net.sink hsink
  rw [hpath] at hpos hnd ⊢
  have hb : 0 < bottleneck r (net.source :: w :: rest) := bottleneck_pos r rest _ w hpos
  have hadm := bottleneck_admissible r rest net.source w _ (le_refl _)
  have hbg := bottleneck_onGrid D r h.grid (net.source :: w :: rest)
  refine ⟨⟨pushPath_nonneg _ hb.le _ r h.nonneg hadm hnd, ?_, pushPath_onGrid D _ hbg _ r h.grid⟩,
    ?_⟩
  · intro S hS hT
    rw [pushPath_cutSum _ S _ _ r hnd, hlast, h.cut S hS hT]
    simp only [ind, hS, hT, if_true, Bool.false_eq_true, if_false]
    ring
  · obtain ⟨k, hk⟩ := hbg
    have hk0 : (0 : ℚ) < k := by rw [← hk]; exact mul_pos hb hD
    have hk1 : (1 : ℤ) ≤ k := by
      have : (0 : ℤ) < k := by exact_mod_cast hk0
      omega
    rw [hk]
    exact_mod_cast hk1

/-- With enough iterations the solver stops, in a state that satisfies the invariant and
with a search tree that cannot grow and does not reach SINK. -/
theorem solve_terminates {N : Nat} (net : Network N) (D : ℚ) (hD : 0 < D)
    (hne : net.source ≠ net.sink) (fuel : Nat) (val : ℚ) (r : Residual N)
    (h : SolverInv net D val r)
    (hfuel : (cutSum net.capacity (sourceOnly net) - val) * D < fuel) :
    ∃ r2 tree val2, solve net fuel r = some (r2, tree) ∧ SolverInv net D val2 r2 ∧
      nextEdge r2 net.source tree = none ∧ inTree net.source tree net.sink = false := by
  induction fuel generalizing val r with
  | zero =>
    have h1 := SolverInv.val_le net D val r hne h
    have h2 : 0 ≤ (cutSum net.capacity (sourceOnly net) - val) * D :=
      mul_nonneg (by linarith) hD.le
    simp only [Nat.cast_zero] at hfuel
    linarith
  | succ fuel ih =>
    have htree : TreeOK r net.source (grow r net.source N []) :=
      grow_TreeOK r net.source N [] trivial
    have hclosed : nextEdge r net.source (grow r net.source N []) = none :=
      grow_closed r net.source N [] trivial (by simp)
    unfold solve
    by_cases hsink : inTree net.source (grow r net.source N []) net.sink = true
    · simp only [hsink, if_true]
      obtain ⟨hinv, hb⟩ := SolverInv.step net D val r hD hne h _ htree hsink
      refine ih _ _ hinv ?_
      push_cast at hfuel
      nlinarith
    · simp only [hsink, Bool.false_eq_true, if_false]
      exact ⟨r, _, val, rfl, h, hclosed, by simpa using hsink⟩

/-- Max-flow / min-cut: when the solver has stopped, the nodes of its search tree form a cut
of minimum capacity among the cuts that separate SOURCE from SINK. -/
theorem tree_is_min_cut {N : Nat} (net : Network N) (D val : ℚ) (r : Residual N)
    (tree : SearchTree N) (h : SolverInv net D val r)
    (hclosed : nextEdge r net.source tree = none)
    (hsink : inTree net.source tree net.sink = false)
    (S : Fin N → Bool) (hS : S net.source = true) (hT : S net.sink = false) :
    cutSum net.capacity (inTree net.source tree) ≤ cutSum net.capacity S := by
  have h0 : cutSum r (inTree net.source tree) = 0 := by
    unfold cutSum
    refine Finset.sum_eq_zero (fun x _ => Finset.sum_eq_zero (fun y _ => ?_))
    split_ifs with hxy
    · have hle : ¬ 0 < r x y := by
        intro hpos
        have := nextEdge_none r net.source tree hclosed x y hxy.1 hpos
        rw [hxy.2] at this
        exact Bool.false_ne_true this
      exact le_antisymm (not_lt.mp hle) (h.nonneg x y)
    · rfl
  have h1 := h.cut (inTree net.source tree) (inTree_root _ _) hsink
  have h2 := h.cut S hS hT
  have h3 := cutSum_nonneg r S h.nonneg
  linarith


/-! ## Cuts of the network of an image -/

/-- The capacity of a cut that separates SOURCE from SINK, split by the kind of edge:
neighbour edges, edges to SINK, edges from SOURCE, and the edge from SOURCE to SINK. -/
theorem cutSum_split {n : Nat} (c : Fin (n + 2) → Fin (n + 2) → ℚ) (S : Fin (n + 2) → Bool)
    (hS : S (Fin.castSucc (Fin.last n)) = true) (hT : S (Fin.last (n + 1)) = false) :
    cutSum c S =
      (∑ k : Fin n, ∑ j : Fin n,
        if S (pixelNode k) = true ∧ S (pixelNode j) = false then c (pixelNode k) (pixelNode j)
        else 0)
      + (∑ k : Fin n, if S (pixelNode k) = true then c (pixelNode k) (Fin.last (n + 1)) else 0)
      + (∑ j : Fin n,
          if S (pixelNode j) = false then c (Fin.castSucc (Fin.last n)) (pixelNode j) else 0)
      + c (Fin.castSucc (Fin.last n)) (Fin.last (n + 1)) := by
  unfold cutSum pixelNode
  simp only [Fin.sum_univ_castSucc, hS, hT, true_and, and_true, Bool.false_eq_true, false_and,
    if_false, Bool.true_eq_false, and_false, add_zero, Finset.sum_add_distrib, if_true,
    Finset.sum_const_zero, zero_add]
  ring


/-! ## The grid of an image -/

theorem contains_iff (image : VectorImage) (p : Index2) :
    image.contains p = true ↔
      0 ≤ p.i0 ∧ p.i0 < (image.width : Int) ∧ 0 ≤ p.i1 ∧ p.i1 < (image.height : Int) := by
  simp only [VectorImage.contains, Bool.and_eq_true, decide_eq_true_eq]
  constructor
  · rintro ⟨⟨⟨h1, h2⟩, h3⟩, h4⟩
    exact ⟨h1, h2, h3, h4⟩
  · rintro ⟨h1, h2, h3, h4⟩
    exact ⟨⟨⟨h1, h2⟩, h3⟩, h4⟩

theorem mem_neighbours (image : VectorImage) (p q : Index2) :
    q ∈ image.neighbours p ↔
      image.contains q = true ∧
        (q = p.add (-1) 0 ∨ q = p.add 1 0 ∨ q = p.add 0 (-1) ∨ q = p.add 0 1) := by
  unfold VectorImage.neighbours
  rw [List.mem_filter]
  simp only [List.mem_cons, List.mem_singleton, List.not_mem_nil, or_false]
  exact and_comm

theorem indexOf_inside (image : VectorImage) (k : Nat) (hk : k < image.pixelCount) :
    image.contains (image.indexOf k) = true := by
  have hw : 0 < image.width := by
    rcases Nat.eq_zero_or_pos image.width with h | h
    · simp [VectorImage.pixelCount, h] at hk
    · exact h
  have h1 : k % image.width < image.width := Nat.mod_lt _ hw
  have h2 : k / image.width < image.height := by
    rw [Nat.div_lt_iff_lt_mul hw]
    simpa [VectorImage.pixelCount, Nat.mul_comm] using hk
  have h3 : (0 : ℤ) ≤ ((k / image.width : ℕ) : ℤ) := Int.ofNat_nonneg _
  have h4 : (0 : ℤ) ≤ ((k % image.width : ℕ) : ℤ) := Int.ofNat_nonneg _
  rw [contains_iff]
  simp only [VectorImage.indexOf]
  omega

/-- The 4-neighbour relation between pixels of an image is symmetric. -/
theorem neighbour_symm (image : VectorImage) (k j : Nat) (hk : k < image.pixelCount)
    (hj : j < image.pixelCount) :
    image.indexOf j ∈ image.neighbours (image.indexOf k) ↔
      image.indexOf k ∈ image.neighbours (image.indexOf j) := by
  rw [mem_neighbours, mem_neighbours]
  have h1 := indexOf_inside image k hk
  have h2 := indexOf_inside image j hj
  simp only [h1, h2, true_and, Index2.add]
  generalize image.indexOf k = p
  generalize image.indexOf j = q
  rcases p with ⟨p0, p1⟩
  rcases q with ⟨q0, q1⟩
  simp only [Index2.mk.injEq]
  constructor <;> intro h <;> omega


/-! ## The capacities of the network of an image -/

theorem buildNetwork_source (cost : CostFunction) (image : VectorImage) (lambda : ℚ)
    (fg bg : List Index2) :
    (buildNetwork cost image lambda fg bg).source = Fin.castSucc (Fin.last image.pixelCount) := by
  apply Fin.ext
  simp [buildNetwork]

theorem buildNetwork_sink (cost : CostFunction) (image : VectorImage) (lambda : ℚ)
    (fg bg : List Index2) :
    (buildNetwork cost image lambda fg bg).sink = Fin.last (image.pixelCount + 1) := by
  apply Fin.ext
  simp [buildNetwork]

theorem capacity_pixel_pixel (cost : CostFunction) (image : VectorImage) (lambda : ℚ)
    (fg bg : List Index2) (k j : Fin image.pixelCount) :
    (buildNetwork cost image lambda fg bg).capacity (pixelNode k) (pixelNode j) =
      if image.indexOf j ∈ image.neighbours (image.indexOf k) then
        lambda * cost.SmoothnessCost (image.indexOf k) (image.indexOf j)
      else 0 := by
  have hk : (k : ℕ) ≠ image.pixelCount := Nat.ne_of_lt k.isLt
  have hj : (j : ℕ) ≠ image.pixelCount + 1 := by have := j.isLt; omega
  simp [buildNetwork, pixelNode, hk, hj]

theorem capacity_pixel_sink (cost : CostFunction) (image : VectorImage) (lambda : ℚ)
    (fg bg : List Index2) (k : Fin image.pixelCount) :
    (buildNetwork cost image lambda fg bg).capacity (pixelNode k)
        (Fin.last (image.pixelCount + 1)) =
      if image.indexOf k ∈ fg then 0
      else if image.indexOf k ∈ bg then seedSentinel cost image lambda
      else cost.DataCost (image.indexOf k) Label.FOREGROUND := by
  have hk : (k : ℕ) ≠ image.pixelCount := Nat.ne_of_lt k.isLt
  simp [buildNetwork, pixelNode, hk]

theorem capacity_source_pixel (cost : CostFunction) (image : VectorImage) (lambda : ℚ)
    (fg bg : List Index2) (j : Fin image.pixelCount) :
    (buildNetwork cost image lambda fg bg).capacity (Fin.castSucc (Fin.last image.pixelCount))
        (pixelNode j) =
      if image.indexOf j ∈ fg then seedSentinel cost image lambda
      else if image.indexOf j ∈ bg then 0
      else cost.DataCost (image.indexOf j) Label.BACKGROUND := by
  simp [buildNetwork, pixelNode]

theorem capacity_source_sink (cost : CostFunction) (image : VectorImage) (lambda : ℚ)
    (fg bg : List Index2) :
    (buildNetwork cost image lambda fg bg).capacity (Fin.castSucc (Fin.last image.pixelCount))
        (Fin.last (image.pixelCount + 1)) = 0 := by
  simp [buildNetwork]

theorem seedSentinel_pos (cost : CostFunction) (image : VectorImage) (lambda : ℚ)
    (hcost : cost.WellFormed) (hl : 0 ≤ lambda) : 0 < seedSentinel cost image lambda := by
  obtain ⟨h1, h2, _⟩ := hcost
  unfold seedSentinel
  have a : 0 ≤ ∑ k : Fin image.pixelCount,
      (cost.DataCost (image.indexOf k) Label.FOREGROUND
        + cost.DataCost (image.indexOf k) Label.BACKGROUND) :=
    Finset.sum_nonneg (fun k _ => add_nonneg (h1 _ _) (h1 _ _))
  have b : 0 ≤ ∑ k : Fin image.pixelCount, ∑ j : Fin image.pixelCount,
      lambda * cost.SmoothnessCost (image.indexOf k) (image.indexOf j) :=
    Finset.sum_nonneg (fun k _ => Finset.sum_nonneg (fun j _ => mul_nonneg hl (h2 _ _)))
  linarith

theorem capacity_nonneg (cost : CostFunction) (image : VectorImage) (lambda : ℚ)
    (fg bg : List Index2) (hcost : cost.WellFormed) (hl : 0 ≤ lambda) (x y) :
    0 ≤ (buildNetwork cost image lambda fg bg).capacity x y := by
  have hK := (seedSentinel_pos cost image lambda hcost hl).le
  obtain ⟨h1, h2, _⟩ := hcost
  simp only [buildNetwork]
  split_ifs <;> first | exact le_refl _ | exact hK | exact h1 _ _ | exact mul_nonneg hl (h2 _ _)


/-! ## Cut capacity and energy -/

/-- For a symmetric weight, the pairs that leave the FOREGROUND set weigh as much as the
pairs with different labels, each counted once. -/
theorem sum_boundary_pairs {n : Nat} (a : Fin n → Fin n → ℚ) (hsym : ∀ k j, a k j = a j k)
    (Lab : Fin n → Label) :
    (∑ k : Fin n, ∑ j : Fin n,
        if Lab k = Label.FOREGROUND ∧ Lab j ≠ Label.FOREGROUND then a k j else 0) =
      ∑ k : Fin n, ∑ j : Fin n, if k < j ∧ Lab k ≠ Lab j then a k j else 0 := by
  have hl : ∀ k j : Fin n,
      (if Lab k = Label.FOREGROUND ∧ Lab j ≠ Label.FOREGROUND then a k j else 0) =
        (if k < j ∧ Lab k = Label.FOREGROUND ∧ Lab j ≠ Label.FOREGROUND then a k j else 0)
          + (if j < k ∧ Lab k = Label.FOREGROUND ∧ Lab j ≠ Label.FOREGROUND then a k j
              else 0) := by
    intro k j
    by_cases h : Lab k = Label.FOREGROUND ∧ Lab j ≠ Label.FOREGROUND
    · have hne : k ≠ j := by
        intro e
        rw [e] at h
        exact h.2 h.1
      rcases lt_or_gt_of_ne hne with hlt | hgt
      · simp [h, hlt, not_lt_of_gt hlt]
      · have hgt2 : j < k := hgt
        simp [h, hgt2, not_lt_of_gt hgt2]
    · have h1 : ¬ (k < j ∧ Lab k = Label.FOREGROUND ∧ Lab j ≠ Label.FOREGROUND) :=
        fun hh => h hh.2
      have h2 : ¬ (j < k ∧ Lab k = Label.FOREGROUND ∧ Lab j ≠ Label.FOREGROUND) :=
        fun hh => h hh.2
      rw [if_neg h, if_neg h1, if_neg h2, add_zero]
  have hr : ∀ k j : Fin n,
      (if k < j ∧ Lab k ≠ Lab j then a k j else 0) =
        (if k < j ∧ Lab k = Label.FOREGROUND ∧ Lab j ≠ Label.FOREGROUND then a k j else 0)
          + (if k < j ∧ Lab j = Label.FOREGROUND ∧ Lab k ≠ Label.FOREGROUND then a k j
              else 0) := by
    intro k j
    by_cases hlt : k < j
    · cases hk : Lab k <;> cases hj : Lab j <;> simp [hlt]
    · simp [hlt]
  have hswap : (∑ k : Fin n, ∑ j : Fin n,
        if k < j ∧ Lab j = Label.FOREGROUND ∧ Lab k ≠ Label.FOREGROUND then a k j else 0) =
      ∑ k : Fin n, ∑ j : Fin n,
        if j < k ∧ Lab k = Label.FOREGROUND ∧ Lab j ≠ Label.FOREGROUND then a k j else 0 := by
    rw [Finset.sum_comm]
    refine Finset.sum_congr rfl (fun k _ => Finset.sum_congr rfl (fun j _ => ?_))
    rw [hsym j k]
  simp_rw [hl, hr, Finset.sum_add_distrib, hswap]

theorem cutOfLabeling_source (image : VectorImage) (L : Index2 → Label) :
    cutOfLabeling image L (Fin.castSucc (Fin.last image.pixelCount)) = true := by
  simp [cutOfLabeling]

theorem cutOfLabeling_sink (image : VectorImage) (L : Index2 → Label) :
    cutOfLabeling image L (Fin.last (image.pixelCount + 1)) = false := by
  simp [cutOfLabeling]

theorem cutOfLabeling_pixel (image : VectorImage) (L : Index2 → Label)
    (k : Fin image.pixelCount) :
    cutOfLabeling image L (pixelNode k) = decide (L (image.indexOf k) = Label.FOREGROUND) := by
  simp [cutOfLabeling, pixelNode]

/-- The capacity of the cut of a labeling that respects the seeds is its energy, less the
data cost of the seeds. -/
theorem cut_eq_energy (cost : CostFunction) (image : VectorImage) (lambda : ℚ)
    (fg bg : List Index2) (L : Index2 → Label) (hL : SeedConsistent fg bg L)
    (hcost : cost.WellFormed) :
    cutSum (buildNetwork cost image lambda fg bg).capacity (cutOfLabeling image L) =
      energy cost lambda image L - seedCost cost image fg bg := by
  obtain ⟨_, _, hsym⟩ := hcost
  obtain ⟨hfg, hbg⟩ := hL
  rw [cutSum_split _ _ (cutOfLabeling_source image L) (cutOfLabeling_sink image L)]
  simp only [cutOfLabeling_pixel, capacity_pixel_pixel, capacity_pixel_sink,
    capacity_source_pixel, capacity_source_sink, decide_eq_true_eq, decide_eq_false_iff_not,
    add_zero]
  -- the terminal edges
  have hdata : (∑ k : Fin image.pixelCount,
        if L (image.indexOf k) = Label.FOREGROUND then
          (if image.indexOf k ∈ fg then 0
            else if image.indexOf k ∈ bg then seedSentinel cost image lambda
            else cost.DataCost (image.indexOf k) Label.FOREGROUND)
        else 0)
      + (∑ j : Fin image.pixelCount,
        if ¬ L (image.indexOf j) = Label.FOREGROUND then
          (if image.indexOf j ∈ fg then seedSentinel cost image lambda
            else if image.indexOf j ∈ bg then 0
            else cost.DataCost (image.indexOf j) Label.BACKGROUND)
        else 0)
      = (∑ k : Fin image.pixelCount, cost.DataCost (image.indexOf k) (L (image.indexOf k)))
        - seedCost cost image fg bg := by
    unfold seedCost
    rw [← Finset.sum_add_distrib, ← Finset.sum_sub_distrib]
    refine Finset.sum_congr rfl (fun k _ => ?_)
    by_cases h1 : image.indexOf k ∈ fg
    · have := hfg _ h1
      simp [h1, this]
    · by_cases h2 : image.indexOf k ∈ bg
      · have := hbg _ h2
        simp [h1, h2, this]
      · cases hk : L (image.indexOf k) <;> simp [h1, h2]
  -- the neighbour edges
  have hsmooth : (∑ k : Fin image.pixelCount, ∑ j : Fin image.pixelCount,
        if L (image.indexOf k) = Label.FOREGROUND ∧ ¬ L (image.indexOf j) = Label.FOREGROUND then
          (if image.indexOf j ∈
              image.neighbours (image.indexOf k) then
            lambda * cost.SmoothnessCost (image.indexOf k) (image.indexOf j)
          else 0)
        else 0)
      = lambda * ∑ k : Fin image.pixelCount, ∑ j : Fin image.pixelCount,
        if k < j ∧
            image.indexOf j ∈ image.neighbours (image.indexOf k) ∧
            L (image.indexOf k) ≠ L (image.indexOf j)
        then cost.SmoothnessCost (image.indexOf k) (image.indexOf j) else 0 := by
    have h := sum_boundary_pairs
      (fun k j : Fin image.pixelCount =>
        if image.indexOf j ∈ image.neighbours (image.indexOf k) then
          lambda * cost.SmoothnessCost (image.indexOf k) (image.indexOf j)
        else 0)
      (fun k j => by
        simp only [neighbour_symm image k j k.isLt j.isLt, hsym (image.indexOf k)])
      (fun k => L (image.indexOf k))
    simp only [ne_eq] at h
    rw [h, Finset.mul_sum]
    refine Finset.sum_congr rfl (fun k _ => ?_)
    rw [Finset.mul_sum]
    refine Finset.sum_congr rfl (fun j _ => ?_)
    by_cases hlt : k < j
    · by_cases hadj : image.indexOf j ∈
          image.neighbours (image.indexOf k)
      · by_cases hne : L (image.indexOf k) = L (image.indexOf j)
        · simp [hlt, hadj, hne]
        · simp [hlt, hadj, hne]
      · simp [hlt, hadj]
    · simp [hlt]
  unfold energy
  linarith


/-! ## Running the engine -/

/-- Rational capacities have a common denominator. -/
theorem exists_grid {N : Nat} (c : Fin N → Fin N → ℚ) : ∃ D : ℚ, 0 < D ∧ OnGrid D c := by
  refine ⟨((∏ x : Fin N, ∏ y : Fin N, (c x y).den : ℕ) : ℚ), ?_, ?_⟩
  · have : 0 < ∏ x : Fin N, ∏ y : Fin N, (c x y).den :=
      Finset.prod_pos (fun x _ => Finset.prod_pos (fun y _ => (c x y).den_pos))
    exact_mod_cast this
  · intro x y
    have hdvd : (c x y).den ∣ ∏ x : Fin N, ∏ y : Fin N, (c x y).den :=
      dvd_trans (Finset.dvd_prod_of_mem (fun y => (c x y).den) (Finset.mem_univ y))
        (Finset.dvd_prod_of_mem (fun x => ∏ y : Fin N, (c x y).den) (Finset.mem_univ x))
    obtain ⟨m, hm⟩ := hdvd
    refine ⟨(c x y).num * m, ?_⟩
    rw [hm]
    push_cast
    rw [← mul_assoc, Rat.mul_den_eq_num]

theorem cutSum_ge_term {N : Nat} (c : Fin N → Fin N → ℚ) (S : Fin N → Bool)
    (hc : ∀ x y, 0 ≤ c x y) (x y : Fin N) (hx : S x = true) (hy : S y = false) :
    c x y ≤ cutSum c S := by
  unfold cutSum
  have h1 : c x y = if S x = true ∧ S y = false then c x y else 0 := by simp [hx, hy]
  have h2 : (if S x = true ∧ S y = false then c x y else 0)
      ≤ ∑ y' : Fin N, if S x = true ∧ S y' = false then c x y' else 0 :=
    Finset.single_le_sum (f := fun y' => if S x = true ∧ S y' = false then c x y' else 0)
      (fun y' _ => by
        dsimp only
        split_ifs <;> first | exact hc _ _ | exact le_refl _) (Finset.mem_univ y)
  have h3 : (∑ y' : Fin N, if S x = true ∧ S y' = false then c x y' else 0)
      ≤ ∑ x' : Fin N, ∑ y' : Fin N, if S x' = true ∧ S y' = false then c x' y' else 0 :=
    Finset.single_le_sum
      (f := fun x' => ∑ y' : Fin N, if S x' = true ∧ S y' = false then c x' y' else 0)
      (fun x' _ => Finset.sum_nonneg (fun y' _ => by
        split_ifs <;> first | exact hc _ _ | exact le_refl _)) (Finset.mem_univ x)
  linarith

/-- A pixel inside the image is the pixel of its raster position. -/
theorem indexOf_raster (image : VectorImage) (p : Index2)
    (hp : image.contains p = true) :
    p.i1.toNat * image.width + p.i0.toNat < image.pixelCount ∧
      image.indexOf (p.i1.toNat * image.width + p.i0.toNat) = p := by
  rcases p with ⟨p0, p1⟩
  rw [contains_iff] at hp
  simp only at hp
  obtain ⟨h1, h2, h3, h4⟩ := hp
  obtain ⟨a, rfl⟩ := Int.eq_ofNat_of_zero_le h1
  obtain ⟨b, rfl⟩ := Int.eq_ofNat_of_zero_le h3
  have ha : a < image.width := by exact_mod_cast h2
  have hb : b < image.height := by exact_mod_cast h4
  simp only [Int.toNat_ofNat, VectorImage.pixelCount, VectorImage.indexOf, Index2.mk.injEq]
  refine ⟨?_, ?_, ?_⟩
  · calc b * image.width + a < b * image.width + image.width := by omega
      _ = (b + 1) * image.width := by ring
      _ ≤ image.height * image.width := Nat.mul_le_mul_right _ hb
      _ = image.width * image.height := Nat.mul_comm _ _
  · have : (b * image.width + a) % image.width = a := by
      rw [Nat.add_comm, Nat.add_mul_mod_self_right, Nat.mod_eq_of_lt ha]
    rw [this]
  · have hw : 0 < image.width := by omega
    have : (b * image.width + a) / image.width = b := by
      rw [Nat.add_comm, Nat.add_mul_div_right _ _ hw, Nat.div_eq_of_lt ha, Nat.zero_add]
    rw [this]

/-- The raster position of the `k`-th pixel is `k`. -/
theorem raster_indexOf (image : VectorImage) (k : Nat) :
    (image.indexOf k).i1.toNat * image.width + (image.indexOf k).i0.toNat = k := by
  simp only [VectorImage.indexOf, Int.toNat_ofNat]
  rw [Nat.mul_comm]
  exact Nat.div_add_mod k image.width


theorem energy_lt_seedSentinel (cost : CostFunction) (image : VectorImage) (lambda : ℚ)
    (L : Index2 → Label) (hcost : cost.WellFormed) (hl : 0 ≤ lambda) :
    energy cost lambda image L < seedSentinel cost image lambda := by
  obtain ⟨h1, h2, _⟩ := hcost
  unfold energy seedSentinel
  have a : (∑ k : Fin image.pixelCount, cost.DataCost (image.indexOf k) (L (image.indexOf k)))
      ≤ ∑ k : Fin image.pixelCount,
        (cost.DataCost (image.indexOf k) Label.FOREGROUND
          + cost.DataCost (image.indexOf k) Label.BACKGROUND) := by
    refine Finset.sum_le_sum (fun k _ => ?_)
    have := h1 (image.indexOf k) Label.FOREGROUND
    have := h1 (image.indexOf k) Label.BACKGROUND
    cases L (image.indexOf k) <;> linarith
  have b : lambda * (∑ k : Fin image.pixelCount, ∑ j : Fin image.pixelCount,
        if k < j ∧
            image.indexOf j ∈ image.neighbours (image.indexOf k) ∧
            L (image.indexOf k) ≠ L (image.indexOf j)
        then cost.SmoothnessCost (image.indexOf k) (image.indexOf j) else 0)
      ≤ ∑ k : Fin image.pixelCount, ∑ j : Fin image.pixelCount,
        lambda * cost.SmoothnessCost (image.indexOf k) (image.indexOf j) := by
    rw [Finset.mul_sum]
    refine Finset.sum_le_sum (fun k _ => ?_)
    rw [Finset.mul_sum]
    refine Finset.sum_le_sum (fun j _ => ?_)
    refine mul_le_mul_of_nonneg_left ?_ hl
    split_ifs
    · exact le_refl _
    · exact h2 _ _
  linarith

theorem seedCost_nonneg (cost : CostFunction) (image : VectorImage) (fg bg : List Index2)
    (hcost : cost.WellFormed) : 0 ≤ seedCost cost image fg bg := by
  unfold seedCost
  refine Finset.sum_nonneg (fun k _ => ?_)
  split_ifs <;> first | exact hcost.1 _ _ | exact le_refl _

/-- A minimum cut of the network of an image leaves every foreground seed with SOURCE and
every background seed with SINK. -/
theorem min_cut_respects_seeds (cost : CostFunction) (image : VectorImage) (lambda : ℚ)
    (fg bg : List Index2) (hcost : cost.WellFormed) (hl : 0 ≤ lambda)
    (hdisj : ∀ p ∈ fg, p ∉ bg) (S : Fin (image.pixelCount + 2) → Bool)
    (hS : S (Fin.castSucc (Fin.last image.pixelCount)) = true)
    (hT : S (Fin.last (image.pixelCount + 1)) = false)
    (hmin : ∀ S2 : Fin (image.pixelCount + 2) → Bool,
      S2 (Fin.castSucc (Fin.last image.pixelCount)) = true →
      S2 (Fin.last (image.pixelCount + 1)) = false →
      cutSum (buildNetwork cost image lambda fg bg).capacity S
        ≤ cutSum (buildNetwork cost image lambda fg bg).capacity S2) :
    (∀ k : Fin image.pixelCount, image.indexOf k ∈ fg → S (pixelNode k) = true) ∧
      (∀ k : Fin image.pixelCount, image.indexOf k ∈ bg → S (pixelNode k) = false) := by
  have hL0 : SeedConsistent fg bg (fun p => if p ∈ fg then Label.FOREGROUND else Label.BACKGROUND) := by
    refine ⟨fun p hp => by simp [hp], fun p hp => ?_⟩
    have : p ∉ fg := fun h => hdisj p h hp
    simp [this]
  have hlt : cutSum (buildNetwork cost image lambda fg bg).capacity S
      < seedSentinel cost image lambda := by
    have h1 := hmin
      (cutOfLabeling image (fun p => if p ∈ fg then Label.FOREGROUND else Label.BACKGROUND))
      (cutOfLabeling_source image _) (cutOfLabeling_sink image _)
    rw [cut_eq_energy cost image lambda fg bg _ hL0 hcost] at h1
    have h2 := energy_lt_seedSentinel cost image lambda
      (fun p => if p ∈ fg then Label.FOREGROUND else Label.BACKGROUND) hcost hl
    have h3 := seedCost_nonneg cost image fg bg hcost
    linarith
  have hcap := capacity_nonneg cost image lambda fg bg hcost hl
  constructor
  · intro k hk
    by_contra hne
    have hk2 : S (pixelNode k) = false := by simpa using hne
    have := cutSum_ge_term _ S hcap _ _ hS hk2
    rw [capacity_source_pixel, if_pos hk] at this
    linarith
  · intro k hk
    by_contra hne
    have hk2 : S (pixelNode k) = true := by simpa using hne
    have := cutSum_ge_term _ S hcap _ _ hk2 hT
    have hnfg : image.indexOf k ∉ fg := fun h => hdisj _ h hk
    rw [capacity_pixel_sink, if_neg hnfg, if_pos hk] at this
    linarith

/-! ## The label map -/

theorem emitLabeling_length {N : Nat} (n : Nat) (source : Fin N) (tree : SearchTree N) :
    (emitLabeling n source tree).length = n := by
  simp [emitLabeling]

theorem emitLabeling_getElem? {n : Nat} (source : Fin (n + 2)) (tree : SearchTree (n + 2))
    (k : Fin n) :
    (emitLabeling n source tree)[k.val]? =
      some (if inTree source tree (pixelNode k) then Label.FOREGROUND else Label.BACKGROUND) := by
  have hk : k.val < n + 2 := by have := k.isLt; omega
  have hp : pixelNode k = ⟨k.val, hk⟩ := by apply Fin.ext; simp [pixelNode]
  simp [emitLabeling, List.getElem?_range k.isLt, hk, hp]

theorem labelAt_emitLabeling (image : VectorImage) (source : Fin (image.pixelCount + 2))
    (tree : SearchTree (image.pixelCount + 2)) (k : Fin image.pixelCount) :
    labelAt image (emitLabeling image.pixelCount source tree) (image.indexOf k) =
      some (if inTree source tree (pixelNode k) then Label.FOREGROUND else Label.BACKGROUND) := by
  unfold labelAt
  rw [raster_indexOf]
  exact emitLabeling_getElem? source tree k

theorem cutOfLabeling_emitLabeling (image : VectorImage)
    (tree : SearchTree (image.pixelCount + 2))
    (hsink : inTree (Fin.castSucc (Fin.last image.pixelCount)) tree
      (Fin.last (image.pixelCount + 1)) = false) :
    cutOfLabeling image (maskLabeling image
        (emitLabeling image.pixelCount (Fin.castSucc (Fin.last image.pixelCount)) tree)) =
      inTree (Fin.castSucc (Fin.last image.pixelCount)) tree := by
  funext v
  by_cases hv : v.val < image.pixelCount
  · have hp : v = pixelNode ⟨v.val, hv⟩ := by apply Fin.ext; simp [pixelNode]
    rw [hp, cutOfLabeling_pixel]
    unfold maskLabeling
    rw [labelAt_emitLabeling image _ tree ⟨v.val, hv⟩]
    cases inTree (Fin.castSucc (Fin.last image.pixelCount)) tree (pixelNode ⟨v.val, hv⟩) <;> simp
  · have h2 := v.isLt
    have h3 : v.val = image.pixelCount ∨ v.val = image.pixelCount + 1 := by omega
    rcases h3 with h3 | h3
    · have : v = Fin.castSucc (Fin.last image.pixelCount) := by apply Fin.ext; simp [h3]
      rw [this, cutOfLabeling_source, inTree_root]
    · have : v = Fin.last (image.pixelCount + 1) := by apply Fin.ext; simp [h3]
      rw [this, cutOfLabeling_sink, hsink]


/-! ## The segmentation engine: results -/

/-- A request with non-empty, disjoint seed sets inside the image and a valid configuration
passes validation. -/
theorem validate_ok (input : EngineInput)
    (hfg : input.sources ≠ []) (hbg : input.sinks ≠ [])
    (hdisj : ∀ p ∈ input.sources, p ∉ input.sinks)
    (hin : ∀ p ∈ input.sources ++ input.sinks, input.image.contains p = true)
    (hbins : 1 ≤ input.numberOfHistogramBins) (hl : 0 ≤ input.lambda) :
    validate input = none := by
  have hcount : ¬ input.image.pixelCount = 0 := by
    obtain ⟨p, t, hp⟩ := List.exists_cons_of_ne_nil hfg
    have := (indexOf_raster input.image p (hin p (by simp [hp]))).1
    omega
  unfold validate
  rw [if_neg (by simp [hfg, hbg]), if_neg (by
    rintro ⟨p, hp1, hp2⟩
    exact hdisj p hp1 hp2), if_neg hcount, if_neg (by
    rintro ⟨p, hp1, hp2⟩
    rw [hin p hp1] at hp2
    exact Bool.noConfusion hp2), if_neg (by
    rintro (h | h)
    · omega
    · exact absurd hl (not_le.mpr h))]

/-- What a request that passes validation satisfies. -/
theorem validate_none (input : EngineInput) (hv : validate input = none) :
    (∀ p ∈ input.sources, p ∉ input.sinks) ∧
      (∀ p ∈ input.sources ++ input.sinks, input.image.contains p = true) ∧
      0 ≤ input.lambda := by
  unfold validate at hv
  split_ifs at hv with h1 h2 h3 h4 h5
  refine ⟨fun p hp1 hp2 => h2 ⟨p, hp1, hp2⟩, fun p hp => ?_, ?_⟩
  · by_contra hne
    exact h4 ⟨p, hp, by simpa using hne⟩
  · by_contra hne
    exact h5 (Or.inr (not_le.mp hne))

/-- Whenever the solver stops, it stops in a state that satisfies the invariant, with a
search tree that cannot grow and does not reach SINK. -/
theorem solve_sound {N : Nat} (net : Network N) (D : ℚ) (hD : 0 < D)
    (hne : net.source ≠ net.sink) (fuel : Nat) (val : ℚ) (r : Residual N)
    (h : SolverInv net D val r) (r2 : Residual N) (tree : SearchTree N)
    (hs : solve net fuel r = some (r2, tree)) :
    ∃ val2, SolverInv net D val2 r2 ∧ nextEdge r2 net.source tree = none ∧
      inTree net.source tree net.sink = false := by
  induction fuel generalizing val r with
  | zero => simp [solve] at hs
  | succ fuel ih =>
    have htree : TreeOK r net.source (grow r net.source N []) :=
      grow_TreeOK r net.source N [] trivial
    have hclosed : nextEdge r net.source (grow r net.source N []) = none :=
      grow_closed r net.source N [] trivial (by simp)
    unfold solve at hs
    by_cases hsink : inTree net.source (grow r net.source N []) net.sink = true
    · simp only [hsink, if_true] at hs
      exact ih _ _ (SolverInv.step net D val r hD hne h _ htree hsink).1 hs
    · simp only [hsink, Bool.false_eq_true, if_false, Option.some.injEq, Prod.mk.injEq] at hs
      obtain ⟨rfl, rfl⟩ := hs
      exact ⟨val, h, hclosed, by simpa using hsink⟩

/-- The facts about the network of a request that the solver needs: no negative capacity,
a common denominator, and two different terminals. -/
theorem buildNetwork_ready (cost : CostFunction) (image : VectorImage) (lambda : ℚ)
    (fg bg : List Index2) (hcost : cost.WellFormed) (hl : 0 ≤ lambda) :
    ∃ D : ℚ, 0 < D ∧
      (buildNetwork cost image lambda fg bg).source ≠ (buildNetwork cost image lambda fg bg).sink ∧
      SolverInv (buildNetwork cost image lambda fg bg) D 0
        (buildNetwork cost image lambda fg bg).capacity := by
  obtain ⟨D, hD, hgrid⟩ := exists_grid (buildNetwork cost image lambda fg bg).capacity
  refine ⟨D, hD, ?_, SolverInv.initial _ D (capacity_nonneg cost image lambda fg bg hcost hl) hgrid⟩
  intro h
  have := congrArg Fin.val h
  simp [buildNetwork] at this

/-- With enough iterations a request that passes validation returns a label map. -/
theorem engine_terminates (appearance : EngineInput → CostFunction) (input : EngineInput)
    (hv : validate input = none) (hl : 0 ≤ input.lambda)
    (hcost : (appearance input).WellFormed) :
    ∃ fuel0 : Nat, ∀ fuel, fuel0 ≤ fuel → ∃ mask : SegmentMask,
      PerformSegmentation appearance fuel input =
        ⟨[.validated, .appearanceModelsBuilt, .networkBuilt, .solved], .labelMap mask⟩ := by
  obtain ⟨D, hD, hne, hinit⟩ := buildNetwork_ready (appearance input) input.image input.lambda
    input.sources input.sinks hcost hl
  refine ⟨⌊cutSum (buildNetwork (appearance input) input.image input.lambda input.sources
      input.sinks).capacity (sourceOnly (buildNetwork (appearance input) input.image
      input.lambda input.sources input.sinks)) * D⌋₊ + 1, fun fuel hfuel => ?_⟩
  have hlt : (cutSum (buildNetwork (appearance input) input.image input.lambda input.sources
      input.sinks).capacity (sourceOnly (buildNetwork (appearance input) input.image
      input.lambda input.sources input.sinks)) - 0) * D < fuel := by
    rw [sub_zero]
    refine lt_of_lt_of_le (Nat.lt_floor_add_one _) ?_
    exact_mod_cast hfuel
  obtain ⟨r2, tree, val2, hsolve, _, _, _⟩ := solve_terminates _ D hD hne fuel 0 _ hinit hlt
  refine ⟨emitLabeling input.image.pixelCount (buildNetwork (appearance input) input.image
    input.lambda input.sources input.sinks).source tree, ?_⟩
  unfold PerformSegmentation
  simp only [hv, hsolve]

/-- Every label map the engine returns shows the nodes of a search tree that is a minimum
cut of the network of the request. -/
theorem engine_sound (appearance : EngineInput → CostFunction) (input : EngineInput)
    (hcost : (appearance input).WellFormed) (fuel : Nat) (mask : SegmentMask)
    (hres : (PerformSegmentation appearance fuel input).result = .labelMap mask) :
    validate input = none ∧
    ∃ tree : SearchTree (input.image.pixelCount + 2),
      mask = emitLabeling input.image.pixelCount
        (Fin.castSucc (Fin.last input.image.pixelCount)) tree ∧
      inTree (Fin.castSucc (Fin.last input.image.pixelCount)) tree
        (Fin.last (input.image.pixelCount + 1)) = false ∧
      ∀ S : Fin (input.image.pixelCount + 2) → Bool,
        S (Fin.castSucc (Fin.last input.image.pixelCount)) = true →
        S (Fin.last (input.image.pixelCount + 1)) = false →
        cutSum (buildNetwork (appearance input) input.image input.lambda input.sources
            input.sinks).capacity
            (inTree (Fin.castSucc (Fin.last input.image.pixelCount)) tree)
          ≤ cutSum (buildNetwork (appearance input) input.image input.lambda input.sources
            input.sinks).capacity S := by
  have hsrc := buildNetwork_source (appearance input) input.image input.lambda input.sources
    input.sinks
  have hsnk := buildNetwork_sink (appearance input) input.image input.lambda input.sources
    input.sinks
  unfold PerformSegmentation at hres
  cases hv : validate input with
  | some e => simp [hv] at hres
  | none =>
    refine ⟨rfl, ?_⟩
    obtain ⟨_, _, hl⟩ := validate_none input hv
    obtain ⟨D, hD, hne, hinit⟩ := buildNetwork_ready (appearance input) input.image
      input.lambda input.sources input.sinks hcost hl
    cases hsolve : solve (buildNetwork (appearance input) input.image input.lambda
        input.sources input.sinks) fuel (buildNetwork (appearance input) input.image
        input.lambda input.sources input.sinks).capacity with
    | none => simp [hv, hsolve] at hres
    | some st =>
      obtain ⟨r2, tree⟩ := st
      simp only [hv, hsolve, EngineResult.labelMap.injEq, hsrc] at hres
      obtain ⟨val2, hinv, hclosed, hsink⟩ := solve_sound _ D hD hne fuel 0 _ hinit r2 tree hsolve
      refine ⟨tree, hres.symm, ?_, ?_⟩
      · rw [← hsrc, ← hsnk]; exact hsink
      · intro S hS hT
        have := tree_is_min_cut _ D val2 r2 tree hinv hclosed hsink S (by rw [hsrc]; exact hS)
          (by rw [hsnk]; exact hT)
        rw [hsrc] at this
        exact this

/-- Every label map the engine returns has one label per pixel, respects the seeds, and has
an energy that no labeling that respects the seeds undercuts. -/
theorem engine_result (appearance : EngineInput → CostFunction) (input : EngineInput)
    (hcost : (appearance input).WellFormed) (fuel : Nat) (mask : SegmentMask)
    (hres : (PerformSegmentation appearance fuel input).result = .labelMap mask) :
    mask.length = input.image.pixelCount ∧
      (∀ p ∈ input.sources, labelAt input.image mask p = some Label.FOREGROUND) ∧
      (∀ p ∈ input.sinks, labelAt input.image mask p = some Label.BACKGROUND) ∧
      ∀ L : Index2 → Label, SeedConsistent input.sources input.sinks L →
        energy (appearance input) input.lambda input.image (maskLabeling input.image mask)
          ≤ energy (appearance input) input.lambda input.image L := by
  obtain ⟨hv, tree, rfl, hsink, hmin⟩ := engine_sound appearance input hcost fuel mask hres
  obtain ⟨hdisj, hin, hl⟩ := validate_none input hv
  obtain ⟨hseedfg, hseedbg⟩ := min_cut_respects_seeds (appearance input) input.image
    input.lambda input.sources input.sinks hcost hl hdisj _ (inTree_root _ _) hsink hmin
  have hF : ∀ p ∈ input.sources,
      labelAt input.image (emitLabeling input.image.pixelCount
        (Fin.castSucc (Fin.last input.image.pixelCount)) tree) p = some Label.FOREGROUND := by
    intro p hp
    obtain ⟨hk, hidx⟩ := indexOf_raster input.image p (hin p (by simp [hp]))
    have h1 := labelAt_emitLabeling input.image
      (Fin.castSucc (Fin.last input.image.pixelCount)) tree ⟨_, hk⟩
    have h2 := hseedfg ⟨_, hk⟩ (by rw [hidx]; exact hp)
    rw [h2] at h1
    rw [hidx] at h1
    simpa using h1
  have hB : ∀ p ∈ input.sinks,
      labelAt input.image (emitLabeling input.image.pixelCount
        (Fin.castSucc (Fin.last input.image.pixelCount)) tree) p = some Label.BACKGROUND := by
    intro p hp
    obtain ⟨hk, hidx⟩ := indexOf_raster input.image p (hin p (by simp [hp]))
    have h1 := labelAt_emitLabeling input.image
      (Fin.castSucc (Fin.last input.image.pixelCount)) tree ⟨_, hk⟩
    have h2 := hseedbg ⟨_, hk⟩ (by rw [hidx]; exact hp)
    rw [h2] at h1
    rw [hidx] at h1
    simpa using h1
  refine ⟨emitLabeling_length _ _ _, hF, hB, ?_⟩
  intro L hL
  have hcons : SeedConsistent input.sources input.sinks (maskLabeling input.image
      (emitLabeling input.image.pixelCount
        (Fin.castSucc (Fin.last input.image.pixelCount)) tree)) :=
    ⟨fun p hp => by simp [maskLabeling, hF p hp], fun p hp => by simp [maskLabeling, hB p hp]⟩
  have e1 := cut_eq_energy (appearance input) input.image input.lambda input.sources
    input.sinks _ hcons hcost
  have e2 := cut_eq_energy (appearance input) input.image input.lambda input.sources
    input.sinks L hL hcost
  rw [cutOfLabeling_emitLabeling input.image tree hsink] at e1
  have e3 := hmin (cutOfLabeling input.image L) (cutOfLabeling_source _ _)
    (cutOfLabeling_sink _ _)
  linarith

/-- C3: for every image, every pair of non-empty disjoint seed sets inside the image, every
smoothness weight `λ ≥ 0` and every cost function with non-negative data costs and
non-negative symmetric smoothness costs, the segmentation returns a label map once the solver
has been given enough iterations; and every label map it returns respects the seeds and
attains the minimum of the energy `Σ DataCost(p, label(p)) + λ Σ SmoothnessCost(p, q)` among
the labelings that respect the seeds: none of them has a strictly lower energy. -/
theorem PerformSegmentation_minimises_energy (appearance : EngineInput → CostFunction)
    (input : EngineInput)
    (hfg : input.sources ≠ []) (hbg : input.sinks ≠ [])
    (hdisj : ∀ p ∈ input.sources, p ∉ input.sinks)
    (hin : ∀ p ∈ input.sources ++ input.sinks, input.image.contains p = true)
    (hbins : 1 ≤ input.numberOfHistogramBins) (hl : 0 ≤ input.lambda)
    (hcost : (appearance input).WellFormed) :
    (∃ fuel0 : Nat, ∀ fuel, fuel0 ≤ fuel → ∃ mask : SegmentMask,
      (PerformSegmentation appearance fuel input).result = .labelMap mask) ∧
    ∀ (fuel : Nat) (mask : SegmentMask),
      (PerformSegmentation appearance fuel input).result = .labelMap mask →
      SeedConsistent input.sources input.sinks (maskLabeling input.image mask) ∧
      ∀ L : Index2 → Label, SeedConsistent input.sources input.sinks L →
        energy (appearance input) input.lambda input.image (maskLabeling input.image mask)
          ≤ energy (appearance input) input.lambda input.image L := by
  constructor
  · obtain ⟨fuel0, h⟩ := engine_terminates appearance input
      (validate_ok input hfg hbg hdisj hin hbins hl) hl hcost
    refine ⟨fuel0, fun fuel hfuel => ?_⟩
    obtain ⟨mask, hres⟩ := h fuel hfuel
    exact ⟨mask, by rw [hres]⟩
  · intro fuel mask hres
    obtain ⟨_, hF, hB, hmin⟩ := engine_result appearance input hcost fuel mask hres
    exact ⟨⟨fun p hp => by simp [maskLabeling, hF p hp],
      fun p hp => by simp [maskLabeling, hB p hp]⟩, hmin⟩

/-- C3, witness: the request on the two-pixel example image. -/
theorem PerformSegmentation_minimises_energy_witness :
    (∃ fuel0 : Nat, ∀ fuel, fuel0 ≤ fuel → ∃ mask : SegmentMask,
      (PerformSegmentation (fun _ => exampleCost) fuel exampleRequest).result
        = .labelMap mask) ∧
    ∀ (fuel : Nat) (mask : SegmentMask),
      (PerformSegmentation (fun _ => exampleCost) fuel exampleRequest).result
        = .labelMap mask →
      SeedConsistent exampleRequest.sources exampleRequest.sinks
        (maskLabeling exampleRequest.image mask) ∧
      ∀ L : Index2 → Label, SeedConsistent exampleRequest.sources exampleRequest.sinks L →
        energy exampleCost exampleRequest.lambda exampleRequest.image
            (maskLabeling exampleRequest.image mask)
          ≤ energy exampleCost exampleRequest.lambda exampleRequest.image L :=
  PerformSegmentation_minimises_energy (fun _ => exampleCost) exampleRequest
    (by decide) (by decide) (by decide) (by decide) (by decide) zero_le_one
    ⟨fun _ _ => zero_le_one, fun _ _ => zero_le_one, fun _ _ => rfl⟩

/-- C4: for every image and every pair of non-empty disjoint seed sets inside the image, the
segmentation returns a label map once the solver has been given enough iterations; and every
label map it returns has one label per pixel and gives FOREGROUND to every pixel of the
foreground seed list (sources) and BACKGROUND to every pixel of the background seed list
(sinks). -/
theorem PerformSegmentation_seed_fidelity (appearance : EngineInput → CostFunction)
    (input : EngineInput)
    (hfg : input.sources ≠ []) (hbg : input.sinks ≠ [])
    (hdisj : ∀ p ∈ input.sources, p ∉ input.sinks)
    (hin : ∀ p ∈ input.sources ++ input.sinks, input.image.contains p = true)
    (hbins : 1 ≤ input.numberOfHistogramBins) (hl : 0 ≤ input.lambda)
    (hcost : (appearance input).WellFormed) :
    (∃ fuel0 : Nat, ∀ fuel, fuel0 ≤ fuel → ∃ mask : SegmentMask,
      (PerformSegmentation appearance fuel input).result = .labelMap mask) ∧
    ∀ (fuel : Nat) (mask : SegmentMask),
      (PerformSegmentation appearance fuel input).result = .labelMap mask →
      mask.length = input.image.pixelCount ∧
      (∀ p ∈ input.sources, labelAt input.image mask p = some Label.FOREGROUND) ∧
      (∀ p ∈ input.sinks, labelAt input.image mask p = some Label.BACKGROUND) := by
  constructor
  · obtain ⟨fuel0, h⟩ := engine_terminates appearance input
      (validate_ok input hfg hbg hdisj hin hbins hl) hl hcost
    refine ⟨fuel0, fun fuel hfuel => ?_⟩
    obtain ⟨mask, hres⟩ := h fuel hfuel
    exact ⟨mask, by rw [hres]⟩
  · intro fuel mask hres
    obtain ⟨hlen, hF, hB, _⟩ := engine_result appearance input hcost fuel mask hres
    exact ⟨hlen, hF, hB⟩

/-- C4, witness: the request on the 2 x 2 example image with seeds in opposite corners. -/
theorem PerformSegmentation_seed_fidelity_witness :
    (∃ fuel0 : Nat, ∀ fuel, fuel0 ≤ fuel → ∃ mask : SegmentMask,
      (PerformSegmentation (fun _ => exampleCost) fuel exampleRequestSquare).result
        = .labelMap mask) ∧
    ∀ (fuel : Nat) (mask : SegmentMask),
      (PerformSegmentation (fun _ => exampleCost) fuel exampleRequestSquare).result
        = .labelMap mask →
      mask.length = exampleRequestSquare.image.pixelCount ∧
      (∀ p ∈ exampleRequestSquare.sources,
        labelAt exampleRequestSquare.image mask p = some Label.FOREGROUND) ∧
      (∀ p ∈ exampleRequestSquare.sinks,
        labelAt exampleRequestSquare.image mask p = some Label.BACKGROUND) :=
  PerformSegmentation_seed_fidelity (fun _ => exampleCost) exampleRequestSquare
    (by decide) (by decide) (by decide) (by decide) (by decide) (le_refl 0)
    ⟨fun _ _ => zero_le_one, fun _ _ => zero_le_one, fun _ _ => rfl⟩

/-! ## `ForegroundBackgroundSegmentMask::Read`: the image name -/

/-- C11: for a file with extension fbmask whose first two lines are a valid header (each a
keyword, white space and an integer, `foreground` and `background` one each in either
order) and whose third line is missing or empty, `Read` opens the file, prints the two
values and throws the `std::runtime_error` "Image file name was empty!"; it does not call
`ReadFromImage`. -/
theorem Read_empty_image_name (getFileExtension getPath : List Char → List Char)
    (fs : List Char → Option (List Char)) (filename : List Char)
    (kw1 kw2 sep1 sep2 ds1 ds2 : List Char) (n1 n2 : Bool) (rest : List Char)
    (hext : getFileExtension filename = "fbmask".toList)
    (hkw : (kw1 = kwForeground ∧ kw2 = kwBackground) ∨ (kw1 = kwBackground ∧ kw2 = kwForeground))
    (hsep1 : sep1 ≠ []) (hsep1s : ∀ c ∈ sep1, isSpace c = true) (hsep1n : ∀ c ∈ sep1, c.toNat ≠ 10)
    (hsep2 : sep2 ≠ []) (hsep2s : ∀ c ∈ sep2, isSpace c = true) (hsep2n : ∀ c ∈ sep2, c.toNat ≠ 10)
    (hds1 : ds1 ≠ []) (hds1d : ∀ c ∈ ds1, isDigit c = true)
    (hds2 : ds2 ≠ []) (hds2d : ∀ c ∈ ds2, isDigit c = true)
    (hrest : rest = [] ∨ rest = [newline] ∨ ∃ t, rest = newline :: newline :: t)
    (hfs : fs filename
      = some (headerLine kw1 sep1 n1 ds1 ++ newline :: (headerLine kw2 sep2 n2 ds2 ++ rest))) :
    Read getFileExtension getPath fs filename =
      ⟨[.openFile filename,
        .print filename
          (if kw1 = kwForeground then clampInt (signedValue n1 ds1)
            else clampInt (signedValue n2 ds2))
          (if kw1 = kwForeground then clampInt (signedValue n2 ds2)
            else clampInt (signedValue n1 ds1))],
        some "Image file name was empty!"⟩ := by
  have hrest2 : rest = [] ∨ ∃ t, rest = newline :: t := by
    rcases hrest with h | h | ⟨t, h⟩
    · exact Or.inl h
    · exact Or.inr ⟨[], h⟩
    · exact Or.inr ⟨newline :: t, h⟩
  have hline : ((afterHeader rest).getline []).2 = [] := by
    rcases hrest with h | h | ⟨t, h⟩
    · subst h; rfl
    · subst h; rfl
    · subst h
      have := getline_line [] t [] (by simp)
      simp only [List.nil_append] at this
      simp only [afterHeader]
      rw [this]
  rw [Read_header getFileExtension getPath fs filename kw1 kw2 sep1 sep2 ds1 ds2 n1 n2 rest
    hext hkw hsep1 hsep1s hsep1n hsep2 hsep2s hsep2n hds1 hds1d hds2 hds2d hrest2 hfs]
  unfold readTail
  rw [hline]
  exact if_pos rfl

/-- C11, witness: the header of the format comment with nothing after it. -/
theorem Read_empty_image_name_witness :
    Read exampleGetFileExtension exampleGetPath
        (fun _ => some "foreground 0\nbackground 255\n".toList) "dir/a.fbmask".toList =
      ⟨[.openFile "dir/a.fbmask".toList,
        .print "dir/a.fbmask".toList 0 255],
        some "Image file name was empty!"⟩ :=
  Read_empty_image_name exampleGetFileExtension exampleGetPath
    (fun _ => some "foreground 0\nbackground 255\n".toList) "dir/a.fbmask".toList
    kwForeground kwBackground [space] [space] "0".toList "255".toList false false [newline]
    (by decide) (Or.inl ⟨rfl, rfl⟩)
    (by decide) (by decide) (by decide) (by decide) (by decide) (by decide)
    (by decide) (by decide) (by decide) (by decide) (Or.inr (Or.inl rfl)) (by decide)

/-! ## The example program: the argument check -/

/-- C12: for every argument vector whose length `argc` is not 5, `main` writes the usage line
to `std::cerr` and returns `EXIT_FAILURE`; it reads no file, does not touch the segmentation
engine and writes no file. -/
theorem main_requires_four_arguments (readImage : List Char → Option VectorImage)
    (engine : EngineInput → Except EngineError SegmentMask)
    (applyToImage : SegmentMask → VectorImage → List Nat → VectorImage)
    (argv : List (List Char)) (hargc : argv.length ≠ 5) :
    main readImage engine applyToImage argv = ⟨[.cerrUsage], .returned EXIT_FAILURE⟩ := by
  unfold main
  rw [if_pos hargc]

/-- C12, witness: the example program called with three arguments. -/
theorem main_requires_four_arguments_witness :
    main exampleFiles exampleEngine (fun _ image _ => image)
        ["ImageGraphCutSegmentationExample".toList, "image.png".toList, "foreground.png".toList,
          "background.png".toList] = ⟨[.cerrUsage], .returned EXIT_FAILURE⟩ :=
  main_requires_four_arguments exampleFiles exampleEngine (fun _ image _ => image)
    ["ImageGraphCutSegmentationExample".toList, "image.png".toList, "foreground.png".toList,
      "background.png".toList] (by decide)

/-! ## The 4-neighbours of a pixel -/

theorem mem_Get4Neighbor (p q : Index2) (region : ImageRegion) :
    q ∈ Get4NeighborIndicesInsideRegion p region ↔
      region.IsInside q = true ∧
        (q = p.add (-1) 0 ∨ q = p.add 1 0 ∨ q = p.add 0 (-1) ∨ q = p.add 0 1) := by
  unfold Get4NeighborIndicesInsideRegion
  simp only [List.nil_append]
  constructor
  · intro h
    split_ifs at h <;> simp at h <;> aesop
  · rintro ⟨hin, h⟩
    rcases h with rfl | rfl | rfl | rfl <;> simp [hin] <;> split_ifs <;> simp

/-- A region with corner (0, 0) and size 2^63 x 2^63: the size converts to the negative index
value -2^63, no index is inside the region, and the pixel (0, 0) has no neighbour inside
it. -/
theorem Get4NeighborIndicesInsideRegion_size_wraps :
    Get4NeighborIndicesInsideRegion ⟨0, 0⟩ ⟨⟨0, 0⟩, ⟨2 ^ 63, 2 ^ 63⟩⟩ = [] ∧
      (⟨⟨0, 0⟩, ⟨2 ^ 63, 2 ^ 63⟩⟩ : ImageRegion).IsInside ⟨0, 0⟩ = false := by
  decide

/-- Membership among the 4-neighbours of a pixel, for two pixels inside the region: the
indices differ by one of the four unit offsets. -/
theorem mem_Get4Neighbor_inside (p q : Index2) (region : ImageRegion)
    (hq : region.IsInside q = true) :
    q ∈ Get4NeighborIndicesInsideRegion p region ↔
      (q.i0 = p.i0 - 1 ∧ q.i1 = p.i1) ∨ (q.i0 = p.i0 + 1 ∧ q.i1 = p.i1) ∨
        (q.i0 = p.i0 ∧ q.i1 = p.i1 - 1) ∨ (q.i0 = p.i0 ∧ q.i1 = p.i1 + 1) := by
  rw [mem_Get4Neighbor]
  rcases p with ⟨p0, p1⟩
  rcases q with ⟨q0, q1⟩
  simp only [hq, true_and, Index2.add, Index2.mk.injEq]
  constructor <;> intro h <;> omega

/-- C14: the 4-connected adjacency is undirected: for every region and all pixels `p` and
`q` inside it, `q` is among the 4-neighbours of `p` exactly when `p` is among the
4-neighbours of `q`. -/
theorem Get4NeighborIndicesInsideRegion_symm (region : ImageRegion) (p q : Index2)
    (hp : region.IsInside p = true) (hq : region.IsInside q = true) :
    q ∈ Get4NeighborIndicesInsideRegion p region ↔
      p ∈ Get4NeighborIndicesInsideRegion q region := by
  rw [mem_Get4Neighbor_inside p q region hq, mem_Get4Neighbor_inside q p region hp]
  constructor <;> intro h <;> omega

/-- C14, witness: the pixels (-1, 0) and (0, 0) of the example region. -/
theorem Get4NeighborIndicesInsideRegion_symm_witness :
    (⟨0, 0⟩ : Index2) ∈ Get4NeighborIndicesInsideRegion ⟨-1, 0⟩ exampleRegion ↔
      (⟨-1, 0⟩ : Index2) ∈ Get4NeighborIndicesInsideRegion ⟨0, 0⟩ exampleRegion :=
  Get4NeighborIndicesInsideRegion_symm exampleRegion ⟨-1, 0⟩ ⟨0, 0⟩ (by decide) (by decide)

/-! ## Regions around a pixel -/

/-- A value of the 64-bit signed index type survives the conversion to the size type and
back. -/
theorem toIndexValue_toSizeValue (v : Int) (hv : -2 ^ 63 ≤ v ∧ v < 2 ^ 63) :
    toIndexValue (toSizeValue v) = v := by
  unfold toIndexValue toSizeValue
  have hnn : 0 ≤ v % 2 ^ 64 := Int.emod_nonneg _ (by norm_num)
  have hcast : ((v % 2 ^ 64).toNat : Int) = v % 2 ^ 64 := Int.toNat_of_nonneg hnn
  generalize hm : (v % 2 ^ 64).toNat = m at hcast
  split_ifs with h <;> omega

/-- A size below 2^63 converts to the index type without change. -/
theorem toIndexValue_of_lt (n : Nat) (hn : n < 2 ^ 63) : toIndexValue n = (n : Int) := by
  unfold toIndexValue
  rw [Nat.mod_eq_of_lt (by omega), if_pos hn]

/-- What `IsInside` tests: in each dimension the index lies between the corner and the sum
of corner and size as `IsInside` computes it. -/
theorem isInside_iff (region : ImageRegion) (p : Index2) :
    region.IsInside p = true ↔
      region.index.i0 ≤ p.i0 ∧
        p.i0 < addIndexValue region.index.i0 (toIndexValue region.size.s0) ∧
        region.index.i1 ≤ p.i1 ∧
        p.i1 < addIndexValue region.index.i1 (toIndexValue region.size.s1) := by
  simp only [ImageRegion.IsInside, Bool.and_eq_true, Bool.not_eq_true', decide_eq_false_iff_not,
    not_lt, ge_iff_le, not_le]
  constructor
  · rintro ⟨⟨⟨h1, h2⟩, h3⟩, h4⟩
    exact ⟨h1, h2, h3, h4⟩
  · rintro ⟨h1, h2, h3, h4⟩
    exact ⟨⟨⟨h1, h2⟩, h3⟩, h4⟩

/-- For an image whose width and height are below 2^63 the pixels of the image are the
indices inside its largest possible region. -/
theorem region_IsInside_eq_contains (image : VectorImage) (hw : image.width < 2 ^ 63)
    (hh : image.height < 2 ^ 63) (p : Index2) :
    image.region.IsInside p = image.contains p := by
  have hfar : ∀ n : Nat, n < 2 ^ 63 → addIndexValue 0 (toIndexValue n) = (n : Int) := by
    intro n hn
    unfold addIndexValue
    rw [toIndexValue_of_lt n hn, zero_add, toIndexValue_toSizeValue _ (by omega)]
  rw [Bool.eq_iff_iff, isInside_iff, contains_iff]
  simp only [VectorImage.region, hfar _ hw, hfar _ hh]

/-- For an image whose width and height are below 2^63 the neighbours of a pixel are the
indices that `Get4NeighborIndicesInsideRegion` returns for the largest possible region. -/
theorem Get4NeighborIndicesInsideRegion_eq_neighbours (image : VectorImage)
    (hw : image.width < 2 ^ 63) (hh : image.height < 2 ^ 63) (p : Index2) :
    Get4NeighborIndicesInsideRegion p image.region = image.neighbours p := by
  unfold Get4NeighborIndicesInsideRegion VectorImage.neighbours
  simp only [List.nil_append, List.filter_cons, List.filter_nil,
    region_IsInside_eq_contains image hw hh]
  cases image.contains (p.add (-1) 0) <;> cases image.contains (p.add 1 0) <;>
    cases image.contains (p.add 0 (-1)) <;> cases image.contains (p.add 0 1) <;> rfl

/-- C15, as amended: for every radius `r` with `2r+1` representable as a 32-bit unsigned int
and every pixel `p` for which, in both dimensions, `p[i] - r` and `p[i] + r + 1` are values
of the 64-bit signed index type, `GetRegionInRadiusAroundPixel(p, r)` is the region with
index `p - (r, r)` and size `(2r+1) x (2r+1)`, and an index `q` is inside it exactly when
`|q[0] - p[0]| <= r` and `|q[1] - p[1]| <= r`. -/
theorem GetRegionInRadiusAroundPixel_square (p : Index2) (r : Nat)
    (hr : 2 * r + 1 < 2 ^ 32)
    (hp0 : -2 ^ 63 ≤ p.i0 - (r : Int) ∧ p.i0 + (r : Int) + 1 < 2 ^ 63)
    (hp1 : -2 ^ 63 ≤ p.i1 - (r : Int) ∧ p.i1 + (r : Int) + 1 < 2 ^ 63) :
    GetRegionInRadiusAroundPixel p r =
        ⟨⟨p.i0 - (r : Int), p.i1 - (r : Int)⟩, ⟨2 * r + 1, 2 * r + 1⟩⟩ ∧
      ∀ q : Index2, (GetRegionInRadiusAroundPixel p r).IsInside q = true ↔
        |q.i0 - p.i0| ≤ (r : Int) ∧ |q.i1 - p.i1| ≤ (r : Int) := by
  have hsize : (r * 2 + 1) % 2 ^ 32 = 2 * r + 1 := by
    rw [Nat.mod_eq_of_lt (by omega)]
    omega
  have hreg : GetRegionInRadiusAroundPixel p r =
      ⟨⟨p.i0 - (r : Int), p.i1 - (r : Int)⟩, ⟨2 * r + 1, 2 * r + 1⟩⟩ := by
    unfold GetRegionInRadiusAroundPixel
    simp only [hsize]
  have hcast : toIndexValue (2 * r + 1) = ((2 * r + 1 : Nat) : Int) :=
    toIndexValue_of_lt _ (by omega)
  have hfar : ∀ v : Int, -2 ^ 63 ≤ v - (r : Int) ∧ v + (r : Int) + 1 < 2 ^ 63 →
      addIndexValue (v - (r : Int)) (toIndexValue (2 * r + 1)) = v + (r : Int) + 1 := by
    intro v hv
    unfold addIndexValue
    rw [hcast, toIndexValue_toSizeValue _ (by push_cast; omega)]
    push_cast
    omega
  refine ⟨hreg, fun q => ?_⟩
  rw [hreg, isInside_iff]
  simp only [hfar p.i0 hp0, hfar p.i1 hp1, abs_le]
  constructor <;> intro h <;> omega

/-- C15, witness: radius 2 around the pixel (0, 5). -/
theorem GetRegionInRadiusAroundPixel_square_witness :
    GetRegionInRadiusAroundPixel ⟨0, 5⟩ 2 = ⟨⟨-2, 3⟩, ⟨5, 5⟩⟩ ∧
      ∀ q : Index2, (GetRegionInRadiusAroundPixel ⟨0, 5⟩ 2).IsInside q = true ↔
        |q.i0 - 0| ≤ 2 ∧ |q.i1 - 5| ≤ 2 :=
  GetRegionInRadiusAroundPixel_square ⟨0, 5⟩ 2 (by decide) (by decide) (by decide)

/-- C15, counterexample: the pixel (2^63 - 1, 0), whose first index value is the largest of
the 64-bit signed index type, and radius 1.  The pixel is at distance 0 from itself, yet it
is not inside `GetRegionInRadiusAroundPixel` of itself: the region has index (2^63 - 2, -1)
and size 3 x 3, and the sum of 2^63 - 2 and 3 in `IsInside` comes out as -2^63 + 1. -/
theorem GetRegionInRadiusAroundPixel_square_counterexample :
    2 * 1 + 1 < 2 ^ 32 ∧
      GetRegionInRadiusAroundPixel ⟨2 ^ 63 - 1, 0⟩ 1 = ⟨⟨2 ^ 63 - 2, -1⟩, ⟨3, 3⟩⟩ ∧
      ¬ ((GetRegionInRadiusAroundPixel ⟨2 ^ 63 - 1, 0⟩ 1).IsInside ⟨2 ^ 63 - 1, 0⟩ = true ↔
        |(2 ^ 63 - 1 : Int) - (2 ^ 63 - 1)| ≤ ((1 : Nat) : Int) ∧
          |(0 : Int) - 0| ≤ ((1 : Nat) : Int)) := by
  have hin : (GetRegionInRadiusAroundPixel ⟨2 ^ 63 - 1, 0⟩ 1).IsInside ⟨2 ^ 63 - 1, 0⟩
      = false := by decide
  refine ⟨by decide, by decide, ?_⟩
  rw [hin]
  simp

/-- The index value survives the conversions of `GetRegionCenter`: converted to the size type,
increased by half of `2r+1` modulo 2^64 and converted back, `v - r` gives `v`. -/
theorem toIndexValue_toSizeValue_add (v : Int) (r : Nat)
    (hv : -2 ^ 63 ≤ v ∧ v < 2 ^ 63) :
    toIndexValue ((toSizeValue (v - (r : Int)) + (2 * r + 1) / 2) % 2 ^ 64) = v := by
  have hhalf : (2 * r + 1) / 2 = r := by omega
  rw [hhalf]
  unfold toIndexValue toSizeValue
  have hnn : 0 ≤ (v - (r : Int)) % 2 ^ 64 := Int.emod_nonneg _ (by norm_num)
  have hcast : (((v - (r : Int)) % 2 ^ 64).toNat : Int) = (v - (r : Int)) % 2 ^ 64 :=
    Int.toNat_of_nonneg hnn
  generalize hm : ((v - (r : Int)) % 2 ^ 64).toNat = m at hcast
  split_ifs with h <;> omega

/-- C16: `GetRegionCenter` undoes `GetRegionInRadiusAroundPixel`: for every pixel `p` (a
pair of 64-bit signed index values) and every radius `r` below 2^31,
`GetRegionCenter(GetRegionInRadiusAroundPixel(p, r)) = p`. -/
theorem GetRegionCenter_GetRegionInRadiusAroundPixel (p : Index2) (r : Nat)
    (hr : r < 2 ^ 31)
    (hp0 : -2 ^ 63 ≤ p.i0 ∧ p.i0 < 2 ^ 63) (hp1 : -2 ^ 63 ≤ p.i1 ∧ p.i1 < 2 ^ 63) :
    GetRegionCenter (GetRegionInRadiusAroundPixel p r) = p := by
  have hsize : (r * 2 + 1) % 2 ^ 32 = 2 * r + 1 := by
    rw [Nat.mod_eq_of_lt (by omega)]
    omega
  unfold GetRegionCenter GetRegionInRadiusAroundPixel
  simp only [hsize]
  rw [toIndexValue_toSizeValue_add p.i0 r hp0, toIndexValue_toSizeValue_add p.i1 r hp1]

/-- C16, witness: radius 2 around the pixel (-1, 5), whose region starts at a negative
index. -/
theorem GetRegionCenter_GetRegionInRadiusAroundPixel_witness :
    GetRegionCenter (GetRegionInRadiusAroundPixel ⟨-1, 5⟩ 2) = ⟨-1, 5⟩ :=
  GetRegionCenter_GetRegionInRadiusAroundPixel ⟨-1, 5⟩ 2 (by decide) (by decide) (by decide)

/-! ## Connectedness of the pixel grid -/

/-- Walking `n` steps in one of the four unit directions stays on a chain of neighbours, as
long as the first and the last pixel are inside the region. -/
theorem walk_straight (region : ImageRegion) (d0 d1 : Int)
    (hd : (d0 = -1 ∧ d1 = 0) ∨ (d0 = 1 ∧ d1 = 0) ∨ (d0 = 0 ∧ d1 = -1) ∨ (d0 = 0 ∧ d1 = 1))
    (n : Nat) (p : Index2) (hp : region.IsInside p = true)
    (hq : region.IsInside (p.add ((n : Int) * d0) ((n : Int) * d1)) = true) :
    Relation.ReflTransGen (NeighbourStep region) p (p.add ((n : Int) * d0) ((n : Int) * d1)) := by
  induction n generalizing p with
  | zero =>
    have : p.add (((0 : Nat) : Int) * d0) (((0 : Nat) : Int) * d1) = p := by
      simp [Index2.add]
    rw [this]
  | succ n ih =>
    have hmid : region.IsInside (p.add d0 d1) = true := by
      rw [isInside_iff] at hp hq ⊢
      simp only [Index2.add] at hq ⊢
      push_cast at hq
      rcases hd with ⟨rfl, rfl⟩ | ⟨rfl, rfl⟩ | ⟨rfl, rfl⟩ | ⟨rfl, rfl⟩ <;> omega
    have hstep : NeighbourStep region p (p.add d0 d1) := by
      refine ⟨hp, ?_⟩
      rw [mem_Get4Neighbor]
      refine ⟨hmid, ?_⟩
      rcases hd with ⟨rfl, rfl⟩ | ⟨rfl, rfl⟩ | ⟨rfl, rfl⟩ | ⟨rfl, rfl⟩ <;> simp
    have hend : (p.add d0 d1).add ((n : Int) * d0) ((n : Int) * d1) =
        p.add (((n + 1 : Nat) : Int) * d0) (((n + 1 : Nat) : Int) * d1) := by
      simp only [Index2.add, Index2.mk.injEq]
      push_cast
      constructor <;> ring
    rw [← hend] at hq ⊢
    exact Relation.ReflTransGen.head hstep (ih (p.add d0 d1) hmid hq)

/-- Walking along one axis between two pixels inside the region. -/
theorem walk_axis0 (region : ImageRegion) (p : Index2) (t : Int)
    (hp : region.IsInside p = true) (ht : region.IsInside ⟨t, p.i1⟩ = true) :
    Relation.ReflTransGen (NeighbourStep region) p ⟨t, p.i1⟩ := by
  rcases le_total p.i0 t with h | h
  · have hform : (⟨t, p.i1⟩ : Index2) =
        p.add ((((t - p.i0).toNat : Nat) : Int) * 1) ((((t - p.i0).toNat : Nat) : Int) * 0) := by
      simp only [Index2.add, Index2.mk.injEq]
      omega
    rw [hform] at ht ⊢
    exact walk_straight region 1 0 (Or.inr (Or.inl ⟨rfl, rfl⟩)) _ p hp ht
  · have hform : (⟨t, p.i1⟩ : Index2) =
        p.add ((((p.i0 - t).toNat : Nat) : Int) * (-1))
          ((((p.i0 - t).toNat : Nat) : Int) * 0) := by
      simp only [Index2.add, Index2.mk.injEq]
      omega
    rw [hform] at ht ⊢
    exact walk_straight region (-1) 0 (Or.inl ⟨rfl, rfl⟩) _ p hp ht

theorem walk_axis1 (region : ImageRegion) (p : Index2) (t : Int)
    (hp : region.IsInside p = true) (ht : region.IsInside ⟨p.i0, t⟩ = true) :
    Relation.ReflTransGen (NeighbourStep region) p ⟨p.i0, t⟩ := by
  rcases le_total p.i1 t with h | h
  · have hform : (⟨p.i0, t⟩ : Index2) =
        p.add ((((t - p.i1).toNat : Nat) : Int) * 0) ((((t - p.i1).toNat : Nat) : Int) * 1) := by
      simp only [Index2.add, Index2.mk.injEq]
      omega
    rw [hform] at ht ⊢
    exact walk_straight region 0 1 (Or.inr (Or.inr (Or.inr ⟨rfl, rfl⟩))) _ p hp ht
  · have hform : (⟨p.i0, t⟩ : Index2) =
        p.add ((((p.i1 - t).toNat : Nat) : Int) * 0)
          ((((p.i1 - t).toNat : Nat) : Int) * (-1)) := by
      simp only [Index2.add, Index2.mk.injEq]
      omega
    rw [hform] at ht ⊢
    exact walk_straight region 0 (-1) (Or.inr (Or.inr (Or.inl ⟨rfl, rfl⟩))) _ p hp ht

/-- A sequence of neighbour steps that ends inside the region can be written out as a chain
of pixels. -/
theorem chain_of_steps (region : ImageRegion) (p q : Index2)
    (h : Relation.ReflTransGen (NeighbourStep region) p q) (hq : region.IsInside q = true) :
    ∃ chain : List Index2, chain.head? = some p ∧ chain.getLast? = some q ∧
      IsNeighbourChain region chain := by
  refine Relation.ReflTransGen.head_induction_on h ?_ ?_
  · exact ⟨[q], rfl, rfl, hq⟩
  · intro a c hac _ ih
    obtain ⟨chain, hhead, hlast, hchain⟩ := ih
    cases chain with
    | nil => simp at hhead
    | cons c2 rest =>
      simp only [List.head?_cons, Option.some.injEq] at hhead
      subst hhead
      refine ⟨a :: c2 :: rest, rfl, ?_, hac.1, hac.2, hchain⟩
      rw [List.getLast?_cons_cons]
      exact hlast

/-- C17: the pixel grid is connected through the 4-neighbour adjacency: for every region
and any two pixels `p` and `q` inside it there is a finite chain of pixels inside the region
that starts with `p`, ends with `q`, and in which every pixel after the first is an element
of `Get4NeighborIndicesInsideRegion` of the pixel before it. -/
theorem grid_connected (region : ImageRegion) (p q : Index2)
    (hp : region.IsInside p = true) (hq : region.IsInside q = true) :
    ∃ chain : List Index2, chain.head? = some p ∧ chain.getLast? = some q ∧
      IsNeighbourChain region chain := by
  have hm : region.IsInside ⟨q.i0, p.i1⟩ = true := by
    rw [isInside_iff] at hp hq ⊢
    exact ⟨hq.1, hq.2.1, hp.2.2.1, hp.2.2.2⟩
  have h1 := walk_axis0 region p q.i0 hp hm
  have h2 := walk_axis1 region ⟨q.i0, p.i1⟩ q.i1 hm hq
  exact chain_of_steps region p q (h1.trans h2) hq

/-- C17, witness: opposite corners of the example region. -/
theorem grid_connected_witness :
    ∃ chain : List Index2, chain.head? = some ⟨-1, 0⟩ ∧ chain.getLast? = some ⟨1, 1⟩ ∧
      IsNeighbourChain exampleRegion chain :=
  grid_connected exampleRegion ⟨-1, 0⟩ ⟨1, 1⟩ (by decide) (by decide)

end ImageGraphCut
